import Mathlib

/-!
# OmniGuess: a verification development for `src/main.c`

The program loads a list of compressed public keys (66 hexadecimal characters
each) into a hash set, then runs worker threads that draw random private keys,
derive the public key and look it up, until the first hit or an interrupt.

Conventions of the embedding:

* a byte (`char`, `unsigned char`, `uint8_t`) is a `Nat`;
* a C string is the list of its characters before the terminating NUL, and
  `s.getD i 0` is the byte `s[i]` (the terminator is read at `i = strlen(s)`);
* `size_t` arithmetic is taken modulo `2 ^ w` where it can wrap;
* the threads are an interleaving step function over explicit scheduler events.
-/

namespace OmniGuess

/-! ## Constants -/

def KEY_HEX_LEN : Nat := 66
def KEY_STORE_BYTES : Nat := KEY_HEX_LEN + 1
def PRIV_LEN : Nat := 32
def COMP_PUB_LEN : Nat := 33

/-! ## libc character classes (C locale) -/

/-- The `isspace` of `<ctype.h>`: space, `\t`, `\n`, `\v`, `\f`, `\r`. -/
def isspace (c : Nat) : Bool := c == 32 || (9 ≤ c && c ≤ 13)

/-- The `isxdigit` of `<ctype.h>`: `0-9`, `A-F`, `a-f`. -/
def isxdigit (c : Nat) : Bool :=
  (48 ≤ c && c ≤ 57) || (65 ≤ c && c ≤ 70) || (97 ≤ c && c ≤ 102)

/-- The `toupper` of `<ctype.h>`: `a-z` go to `A-Z`, every other byte is kept. -/
def toupper (c : Nat) : Nat := if 97 ≤ c ∧ c ≤ 122 then c - 32 else c

/-! ## Text utilities -/

/-- The C string held by a buffer: the bytes before the first NUL. This is what
`getline` hands to the `strlen`-based helpers below. -/
def cstr (buf : List Nat) : List Nat := buf.takeWhile (fun c => c != 0)

/-- The loop of `rstrip`: `while(n && (s[n-1]=='\n'||s[n-1]=='\r'||isspace(s[n-1]))) s[--n]='\0'`,
by recursion on `n`; the string that remains is the first `n` characters. -/
def rstrip_loop (s : List Nat) : Nat → List Nat
  | 0 => []
  | n + 1 =>
    if s.getD n 0 == 10 || s.getD n 0 == 13 || isspace (s.getD n 0) then rstrip_loop s n
    else s.take (n + 1)

/-- `rstrip(s)`: `n = strlen(s)`, then the loop. -/
def rstrip (s : List Nat) : List Nat := rstrip_loop s s.length

/-- `lstrip_inplace(s)`: skip `i` while `s[i] && isspace(s[i])`, then move the rest to the front. -/
def lstrip_inplace (s : List Nat) : List Nat := s.dropWhile (fun c => c != 0 && isspace c)

/-- `uppercase_inplace(s)`: `toupper` on every character up to the terminator. -/
def uppercase_inplace (s : List Nat) : List Nat := s.map toupper

/-- `strip_utf8_bom_once(s)`: drop the three bytes `EF BB BF` when the string starts with them. -/
def strip_utf8_bom_once (s : List Nat) : List Nat :=
  if s.getD 0 0 == 0xEF && s.getD 1 0 == 0xBB && s.getD 2 0 == 0xBF then s.drop 3 else s

/-- `looks_like_len_hex(s,want)`: 0 unless `strlen(s)==want` and `isxdigit(s[i])` for all `i<want`. -/
def looks_like_len_hex (s : List Nat) (want : Nat) : Nat :=
  if s.length != want then 0
  else if (List.range want).all (fun i => isxdigit (s.getD i 0)) then 1 else 0

/-- `looks_like_compressed_pubkey(s)`. -/
def looks_like_compressed_pubkey (s : List Nat) : Nat :=
  if looks_like_len_hex s KEY_HEX_LEN == 0 then 0
  else if s.getD 0 0 == 48 && (s.getD 1 0 == 50 || s.getD 1 0 == 51) then 1 else 0

/-- The table `H[] = "0123456789ABCDEF"` of `bytes_to_hex`. -/
def H : List Nat := [48, 49, 50, 51, 52, 53, 54, 55, 56, 57, 65, 66, 67, 68, 69, 70]

/-- The loop of `bytes_to_hex`: `out[2*i]=H[(in[i]>>4)&0xF]; out[2*i+1]=H[in[i]&0xF];` for
every byte of `inp` in turn. -/
def hex_pairs (inp : List Nat) : List Nat :=
  inp.flatMap (fun b => [H.getD ((b >>> 4) &&& 0xF) 0, H.getD (b &&& 0xF) 0])

/-- `bytes_to_hex(in,n,out)` with `n` the length of `inp`: the whole `out` buffer, the
characters written by the loop and the terminator `out[2*n]='\0'`. -/
def bytes_to_hex (inp : List Nat) : List Nat := hex_pairs inp ++ [0]

/-- `make_keybuf_from_hex(src,out)`: `memcpy(out,src,KEY_HEX_LEN); out[KEY_HEX_LEN]='\0'`.
`src` is the memory that starts at the pointer; the result is the buffer `out`. -/
def make_keybuf_from_hex (src : List Nat) : List Nat := src.take KEY_HEX_LEN ++ [0]

/-! ## Specification vocabulary for the text utilities -/

/-- The hexadecimal digits `0-9`, `a-f`, `A-F`, as bytes. -/
def hex_alphabet : List Nat := "0123456789abcdefABCDEF".toList.map Char.toNat

/-- The value of a hexadecimal digit in either letter case. -/
def hex_digit_value (c : Nat) : Option Nat :=
  if 48 ≤ c ∧ c ≤ 57 then some (c - 48)
  else if 97 ≤ c ∧ c ≤ 102 then some (c - 87)
  else if 65 ≤ c ∧ c ≤ 70 then some (c - 55)
  else none

/-- The bytes spelled by a hexadecimal string, two digits per byte, high digit first. -/
def hex_decode : List Nat → Option (List Nat)
  | [] => some []
  | [_] => none
  | a :: b :: rest =>
    match hex_digit_value a, hex_digit_value b, hex_decode rest with
    | some hi, some lo, some bs => some ((16 * hi + lo) :: bs)
    | _, _, _ => none

/-- The string `L` is a hexadecimal spelling, in any letter case, of the bytes `P`. -/
def spells (L P : List Nat) : Prop := hex_decode L = some P

instance (L P : List Nat) : Decidable (spells L P) := by
  unfold spells; infer_instance

/-! ## The membership set (`hashtable.h`) -/

/-- Modelled from the spec: `hashtable.h` is not among the sources. The MembershipSet is an
exact set of fixed-length keys; the model keeps the list of the keys it stores. -/
structure HashTable where
  keys : List (List Nat)
deriving DecidableEq, Repr

/-- Modelled from the spec: `ht_setup` creates the set empty. -/
def ht_setup : HashTable := ⟨[]⟩

/-- Modelled from the spec: `ht_insert` stores a key that is not yet present and returns 0;
inserting a key that is already present is a no-op reported as "already present" (here 1). -/
def ht_insert (ht : HashTable) (key : List Nat) : HashTable × Nat :=
  if key ∈ ht.keys then (ht, 1) else (⟨key :: ht.keys⟩, 0)

/-- Modelled from the spec: `ht_contains` is true for exactly the keys that were inserted. -/
def ht_contains (ht : HashTable) (key : List Nat) : Bool := decide (key ∈ ht.keys)

/-! ## `main`: counting pass, reserve computation, load pass

A file is the list of the buffers `getline` returns, one per line. -/

/-- One iteration of the counting pass (`valid_count` is the accumulator). -/
def count_step (validate_db : Bool) (valid_count : Nat) (raw : List Nat) : Nat :=
  let line := lstrip_inplace (rstrip (cstr raw))
  if line.getD 0 0 == 0 then valid_count
  else if !validate_db || looks_like_compressed_pubkey line != 0 then valid_count + 1
  else valid_count

/-- The counting pass of `main`: the value of `valid_count` after the first `getline` loop. -/
def count_pass (validate_db : Bool) (file : List (List Nat)) : Nat :=
  file.foldl (count_step validate_db) 0

/-- The loop `reserve=1; while(reserve < valid_count*2) reserve<<=1;` on a `size_t` of `w`
bits, with `fuel` bounding the number of evaluations of the loop condition. -/
def reserve_loop (w valid_count : Nat) : Nat → Nat → Option Nat
  | 0, _ => none
  | fuel + 1, reserve =>
    if reserve < (valid_count * 2) % 2 ^ w then
      reserve_loop w valid_count fuel ((reserve <<< 1) % 2 ^ w)
    else some reserve

/-- The argument of `ht_reserve(&ht,(uint32_t)reserve)`. -/
def reserve_arg (w valid_count fuel : Nat) : Option Nat :=
  (reserve_loop w valid_count fuel 1).map (fun reserve => reserve % 2 ^ 32)

/-- The variables of the load pass. `inserts` is a ghost trace: the key buffers handed to
`ht_insert`, in call order. -/
structure LoadState where
  bom_checked : Bool
  loaded : Nat
  skipped : Nat
  ht : HashTable
  inserts : List (List Nat)
deriving DecidableEq, Repr

/-- The variables before the load pass: `bom_checked=0`, `loaded=0`, `skipped=0`, the set empty. -/
def load_init : LoadState := ⟨false, 0, 0, ht_setup, []⟩

/-- The body of the load loop after `if(*line=='\0') continue;`, on the trimmed line.
`slack k` is the content of the line buffer after the terminator at the `k`-th call of
`ht_insert` (unspecified memory, read by the `memcpy` of `make_keybuf_from_hex` only when the
line is shorter than `KEY_HEX_LEN`). -/
def load_body (validate_db : Bool) (slack : Nat → List Nat) (st : LoadState) (line : List Nat) :
    LoadState :=
  let line := if !st.bom_checked then strip_utf8_bom_once line else line
  let st := { st with bom_checked := true }
  if validate_db && looks_like_compressed_pubkey line == 0 then
    { st with skipped := st.skipped + 1 }
  else
    let line := uppercase_inplace line
    let kbuf := make_keybuf_from_hex (line ++ 0 :: slack st.inserts.length)
    let r := ht_insert st.ht kbuf
    if r.2 == 0 then
      { st with ht := r.1, inserts := st.inserts ++ [kbuf], loaded := st.loaded + 1 }
    else
      { st with ht := r.1, inserts := st.inserts ++ [kbuf], skipped := st.skipped + 1 }

/-- One iteration of the load pass: `rstrip(line); lstrip_inplace(line);`, skip a blank line,
otherwise the body. -/
def load_step (validate_db : Bool) (slack : Nat → List Nat) (st : LoadState) (raw : List Nat) :
    LoadState :=
  let line := lstrip_inplace (rstrip (cstr raw))
  if line.getD 0 0 == 0 then st else load_body validate_db slack st line

/-- The load pass of `main`: the second `getline` loop. -/
def load_pass (validate_db : Bool) (slack : Nat → List Nat) (file : List (List Nat)) :
    LoadState :=
  file.foldl (load_step validate_db slack) load_init

/-! ## Specification vocabulary for the load -/

/-- A line as both passes see it after `rstrip` and `lstrip_inplace`. -/
def trimmed (raw : List Nat) : List Nat := lstrip_inplace (rstrip (cstr raw))

/-- The lines of the file that are not blank after trimming. -/
def nonblank_lines (file : List (List Nat)) : List (List Nat) :=
  (file.map trimmed).filter (fun l => l.getD 0 0 != 0)

/-- The non-blank lines with the byte-order marker taken off the first of them. -/
def prepared_lines (file : List (List Nat)) : List (List Nat) :=
  match nonblank_lines file with
  | [] => []
  | first :: rest => strip_utf8_bom_once first :: rest

/-- The valid lines: the prepared lines that look like a compressed public key. -/
def valid_lines (file : List (List Nat)) : List (List Nat) :=
  (prepared_lines file).filter (fun l => looks_like_compressed_pubkey l != 0)

/-- The distinct keys among the valid lines, in canonical (uppercase) form. -/
def distinct_keys (file : List (List Nat)) : List (List Nat) :=
  ((valid_lines file).map uppercase_inplace).dedup

/-- The uppercase hexadecimal digits `0-9`, `A-F`, as bytes. -/
def upper_hex_alphabet : List Nat := "0123456789ABCDEF".toList.map Char.toNat

/-- A byte list made of the character `c` repeated. -/
def line_of (pre : List Char) (c : Char) (n : Nat) : List Nat :=
  pre.map Char.toNat ++ List.replicate n c.toNat

/-- The facts about the set and the counters that every iteration of the load loop keeps. -/
def LoadInv (st : LoadState) (n : Nat) : Prop :=
  st.ht.keys.Nodup ∧ (∀ k, k ∈ st.ht.keys ↔ k ∈ st.inserts) ∧
    st.loaded = st.ht.keys.length ∧ st.loaded + st.skipped = n

/-! ## RNG (`UrandPool`, the non-Apple branch)

`size_t` is 64 bits wide here. -/

/-- The struct `UrandPool`: `buf` is the content of the allocated buffer, `[]` for `NULL`. -/
structure UrandPool where
  fd : Int
  pos : Nat
  cap : Nat
  buf : List Nat
deriving DecidableEq, Repr

/-- What the system delivers during one draw: `rd` is the outcome of `read` should it be called
(`none` for an error, otherwise the bytes available) and `rnd i` is the value of the `i`-th call
of `rand()`. -/
structure DrawEnv where
  rd : Option (List Nat)
  rnd : Nat → Nat

/-- The cast `(ssize_t)` of a `size_t`. -/
def to_ssize (c : Nat) : Int := if c < 2 ^ 63 then (c : Int) else (c : Int) - 2 ^ 64

/-- The call `read(fd,buf,count)`: the return value and the buffer afterwards. At most `count`
bytes are delivered; they overwrite the front of the buffer. -/
def sys_read (rd : Option (List Nat)) (buf : List Nat) (count : Nat) : Int × List Nat :=
  match rd with
  | none => (-1, buf)
  | some bytes =>
    (((bytes.take count).length : Nat), bytes.take count ++ buf.drop (bytes.take count).length)

/-- `urandpool_init(p,cap)`: `mem` is the result of `malloc(cap)` (`none` for `NULL`, otherwise
the content of the fresh buffer) and `open_fd` the result of `open`. Returns the pool and the
return value. -/
def urandpool_init (cap : Nat) (mem : Option (List Nat)) (open_fd : Int) : UrandPool × Int :=
  match mem with
  | none => (⟨-1, 0, 0, []⟩, -1)
  | some b =>
    if open_fd < 0 then (⟨open_fd, 0, cap, []⟩, -1)
    else (⟨open_fd, cap, cap, b⟩, 0)

/-- The outcome of one draw: the pool afterwards, the bytes written to `dst`, and a ghost flag
telling whether they came from `rand()`. -/
structure PoolDraw where
  pool : UrandPool
  dst : List Nat
  by_rand : Bool

/-- The bytes `dst[i]=(uint8_t)rand()` for `i<n`. -/
def rand_bytes (rnd : Nat → Nat) (n : Nat) : List Nat := (List.range n).map (fun i => rnd i % 256)

/-- The tail of `urandpool_get`: `memcpy(dst,p->buf+p->pos,n); p->pos+=n;`. -/
def pool_copy (p : UrandPool) (n : Nat) : PoolDraw :=
  ⟨{ p with pos := (p.pos + n) % 2 ^ 64 }, (p.buf.drop p.pos).take n, false⟩

/-- `urandpool_get(p,dst,n)`: refill when fewer than `n` bytes remain, fall back to `rand()`
when the refill `read` does not deliver `cap` bytes, otherwise copy from the pool. -/
def urandpool_get (p : UrandPool) (n : Nat) (env : DrawEnv) : PoolDraw :=
  let rem := (p.cap + 2 ^ 64 - p.pos) % 2 ^ 64
  if rem < n then
    let r := sys_read env.rd p.buf p.cap
    if r.1 ≠ to_ssize p.cap then ⟨{ p with buf := r.2 }, rand_bytes env.rnd n, true⟩
    else pool_copy { p with buf := r.2, pos := 0 } n
  else pool_copy p n

/-- The RNG part of `WorkerCtx`. -/
structure WorkerRng where
  pool : UrandPool
  pool_ok : Bool
deriving DecidableEq, Repr

/-- The line `ctx->pool_ok = (urandpool_init(&ctx->pool, 1<<20) == 0);` of `worker_fn`. -/
def worker_rng_init (mem : Option (List Nat)) (open_fd : Int) : WorkerRng :=
  ⟨(urandpool_init (1 <<< 20) mem open_fd).1, (urandpool_init (1 <<< 20) mem open_fd).2 == 0⟩

/-- The outcome of the draw of one loop iteration of `worker_fn`. -/
structure WorkerDraw where
  ctx : WorkerRng
  seckey : List Nat
  by_rand : Bool

/-- The draw of `worker_fn`: `if(ctx->pool_ok) urandpool_get(&ctx->pool,seckey,sizeof seckey);`
`else for (int i=0;i<PRIV_LEN;i++) seckey[i]=(uint8_t)rand();`. -/
def worker_draw (ctx : WorkerRng) (env : DrawEnv) : WorkerDraw :=
  if ctx.pool_ok then
    ⟨{ ctx with pool := (urandpool_get ctx.pool PRIV_LEN env).pool },
      (urandpool_get ctx.pool PRIV_LEN env).dst, (urandpool_get ctx.pool PRIV_LEN env).by_rand⟩
  else ⟨ctx, rand_bytes env.rnd PRIV_LEN, true⟩

/-- The worker's RNG state and the ghost flags of the draws made, after a sequence of draws. -/
def worker_draws (ctx : WorkerRng) : List DrawEnv → WorkerRng × List Bool
  | [] => (ctx, [])
  | env :: rest =>
    ((worker_draws (worker_draw ctx env).ctx rest).1,
      (worker_draw ctx env).by_rand :: (worker_draws (worker_draw ctx env).ctx rest).2)

/-- The part of the worker state that could tell a fallback draw apart: `pool_ok`, `pos`, `cap`. -/
def rng_view (ctx : WorkerRng) : Bool × Nat × Nat := (ctx.pool_ok, ctx.pool.pos, ctx.pool.cap)

/-- A draw during which `read` delivers a full chunk of `1<<20` bytes. -/
def full_read_env : DrawEnv := ⟨some (List.replicate (1 <<< 20) 7), fun _ => 0⟩

/-- A draw during which `read` delivers only 100 bytes. -/
def short_read_env : DrawEnv := ⟨some (List.replicate 100 7), fun i => i⟩

/-- A worker whose pool was set up and which then made 32768 draws, every refill read among
them delivering a full chunk: the final RNG state and the ghost flags of the draws. -/
def pool_only_run : WorkerRng × List Bool :=
  worker_draws (worker_rng_init (some (List.replicate (1 <<< 20) 0)) 3)
    (List.replicate 32768 full_read_env)

/-! ## The search: `worker_fn` and the coordinator loop of `main` as an interleaving

Each thread advances by atomic steps; a schedule is a list of events saying which thread moves
next and what its collaborators deliver. -/

/-- Where a worker stands in `worker_fn`. -/
inductive WorkerPc where
  /-- Before `secp256k1_context_create`. -/
  | start
  /-- At the loop condition `while(!atomic_load_explicit(ctx->stop, ...))`. -/
  | top
  /-- Inside the loop body, the flag having been read as false. -/
  | iter
  /-- After `ht_contains` returned true, before `atomic_exchange(ctx->stop, true)`. -/
  | hit (priv_hex pub_hex : List Nat)
  /-- After the exchange returned false, before the locked copy into the Result. -/
  | won (priv_hex pub_hex : List Nat)
  /-- Out of the loop (after `break`, after the flag was read as true, or `pthread_exit`). -/
  | done
deriving DecidableEq, Repr

/-- The per-thread state: the place in the code, the counter `counts[idx]`, and the value its
own `atomic_exchange` returned, once it has made one. -/
structure Worker where
  pc : WorkerPc
  count : Nat
  xchg : Option Bool
deriving DecidableEq, Repr

/-- What the collaborators deliver to a worker during a step: whether
`secp256k1_context_create` succeeded, the drawn `seckey`, the results of
`secp256k1_ec_seckey_verify` and `secp256k1_ec_pubkey_create`, and the serialized `pub33`. -/
structure WorkerInput where
  sctx_ok : Bool
  seckey : List Nat
  verify_ok : Bool
  create_ok : Bool
  pub33 : List Nat
deriving DecidableEq, Repr

/-- Where the coordinator stands in `main` once the threads are created. -/
inductive MainPc where
  /-- At the loop condition `while(!atomic_load(&stop))`. -/
  | poll
  /-- Inside the polling loop, at `if(g_int)`. -/
  | body
  /-- At the `pthread_join` loop. -/
  | join
  /-- Returned from `main` with this exit status. -/
  | exited (status : Nat)
deriving DecidableEq, Repr

/-- The shared state of the search. `writers` is a ghost log: the indices of the workers that
copied into `found_priv_hex`/`found_pub_hex`, in order. -/
structure Search where
  ht : HashTable
  nthreads : Nat
  stop : Bool
  g_int : Bool
  found_priv_hex : List Nat
  found_pub_hex : List Nat
  workers : Nat → Worker
  main : MainPc
  writers : List Nat

/-- A scheduling event: worker `i` moves, the coordinator moves, or `SIGINT` is delivered. -/
inductive Event where
  | worker (i : Nat) (inp : WorkerInput)
  | main
  | sigint

/-- The thread table with the entry of worker `i` replaced. -/
def set_worker (ws : Nat → Worker) (i : Nat) (w : Worker) : Nat → Worker :=
  fun j => if j = i then w else ws j

/-- One atomic step of worker `i` in `worker_fn`. -/
def worker_step (s : Search) (i : Nat) (inp : WorkerInput) : Search :=
  let w := s.workers i
  match w.pc with
  | .start =>
    { s with workers := set_worker s.workers i ⟨if inp.sctx_ok then .top else .done, w.count, w.xchg⟩ }
  | .top =>
    { s with workers := set_worker s.workers i ⟨if s.stop then .done else .iter, w.count, w.xchg⟩ }
  | .iter =>
    if !inp.verify_ok then
      { s with workers := set_worker s.workers i ⟨.top, w.count, w.xchg⟩ }
    else if !inp.create_ok then
      { s with workers := set_worker s.workers i ⟨.top, w.count, w.xchg⟩ }
    else if ht_contains s.ht
        (make_keybuf_from_hex (bytes_to_hex (inp.pub33.take COMP_PUB_LEN))) then
      { s with
        workers := set_worker s.workers i
          ⟨.hit (bytes_to_hex (inp.seckey.take PRIV_LEN))
            (bytes_to_hex (inp.pub33.take COMP_PUB_LEN)), w.count, w.xchg⟩ }
    else
      { s with workers := set_worker s.workers i ⟨.top, (w.count + 1) % 2 ^ 64, w.xchg⟩ }
  | .hit priv_hex pub_hex =>
    { s with
      stop := true,
      workers := set_worker s.workers i
        ⟨if !s.stop then .won priv_hex pub_hex else .done, w.count, some s.stop⟩ }
  | .won priv_hex pub_hex =>
    { s with
      found_priv_hex := cstr priv_hex,
      found_pub_hex := cstr pub_hex,
      writers := s.writers ++ [i],
      workers := set_worker s.workers i ⟨.done, w.count, w.xchg⟩ }
  | .done => s

/-- One atomic step of the coordinator: the loop condition, the `g_int` test with the forced
store, and the joins followed by the report and `return found_pub_hex[0] ? 0 : 1`. -/
def main_step (s : Search) : Search :=
  match s.main with
  | .poll => if s.stop then { s with main := .join } else { s with main := .body }
  | .body => if s.g_int then { s with stop := true, main := .join } else { s with main := .poll }
  | .join =>
    if (List.range s.nthreads).all (fun i => (s.workers i).pc == .done) then
      { s with main := .exited (if s.found_pub_hex.getD 0 0 != 0 then 0 else 1) }
    else s
  | .exited _ => s

/-- One step of the whole program. -/
def step (s : Search) (e : Event) : Search :=
  match e with
  | .worker i inp => if i < s.nthreads then worker_step s i inp else s
  | .main => main_step s
  | .sigint => { s with g_int := true }

/-- The state after a schedule. -/
def run (s : Search) (es : List Event) : Search := es.foldl step s

/-- The state of `main` when the threads have been created: `stop=false`, the Result buffers
zeroed, every worker at the start of `worker_fn`. -/
def search_init (ht : HashTable) (nthreads : Nat) : Search :=
  ⟨ht, nthreads, false, false, [], [], fun _ => ⟨.start, 0, none⟩, .poll, []⟩

/-- A schedule that gives every worker two steps and then the coordinator one. -/
def drain (nthreads : Nat) (inp : Nat → WorkerInput) : List Event :=
  (List.range nthreads).flatMap (fun i => [Event.worker i (inp i), Event.worker i (inp i)])
    ++ [Event.main]

/-- The facts about the flag, the exchanges and the Result that every step keeps. -/
structure SearchInv (s : Search) : Prop where
  no_xchg : s.stop = false → ∀ i, (s.workers i).xchg = none
  one_false : ∀ i j, (s.workers i).xchg = some false → (s.workers j).xchg = some false → i = j
  after_false : ∀ i, (s.workers i).xchg = some false →
    ((∃ a b, (s.workers i).pc = .won a b) ∧ i ∉ s.writers) ∨ (s.workers i).pc = .done
  after_true : ∀ i, (s.workers i).xchg = some true → (s.workers i).pc = .done
  won_false : ∀ i a b, (s.workers i).pc = .won a b → (s.workers i).xchg = some false
  writers_false : ∀ i ∈ s.writers, (s.workers i).xchg = some false
  writers_len : s.writers.length ≤ 1
  found_empty : s.writers = [] → s.found_pub_hex = []

/-- The situation after the coordinator forced the flag with no exchange made before: the flag
is set, nobody has won or can win the exchange, the Result is untouched, and the coordinator
is joining or has returned 1. -/
structure Cancelled (s : Search) : Prop where
  stop : s.stop = true
  no_writer : s.writers = []
  no_found : s.found_pub_hex = []
  no_winner : ∀ i, (s.workers i).xchg ≠ some false
  no_won : ∀ i a b, (s.workers i).pc ≠ .won a b
  main_pc : s.main = .join ∨ s.main = .exited 1

/-- Once `main` has returned, every thread was joined and the status reflects the Result. -/
def ExitInv (s : Search) : Prop :=
  ∀ c, s.main = .exited c →
    (∀ i, i < s.nthreads → (s.workers i).pc = .done) ∧
      c = (if s.found_pub_hex.getD 0 0 != 0 then 0 else 1)

/-- A set loaded from a one-line file, a candidate whose public key that line spells, and one
whose public key it does not. -/
def demo_ht : HashTable := (load_pass true (fun _ => []) [line_of ['0', '2'] 'a' 64 ++ [10]]).ht

/-- A candidate that is in the set. -/
def demo_hit : WorkerInput := ⟨true, List.replicate 32 1, true, true, 2 :: List.replicate 32 170⟩

/-- A candidate that is not in the set. -/
def demo_miss : WorkerInput := ⟨true, List.replicate 32 1, true, true, 3 :: List.replicate 32 170⟩

/-- Two workers both find a hit before either makes its exchange; worker 1 exchanges first. -/
def race_schedule : List Event :=
  [.worker 0 demo_hit, .worker 0 demo_hit, .worker 0 demo_hit,
   .worker 1 demo_hit, .worker 1 demo_hit, .worker 1 demo_hit,
   .worker 1 demo_hit, .worker 0 demo_hit, .worker 1 demo_hit, .main, .main]

/-- Worker 0 enters an iteration, the interrupt arrives, and the coordinator reads the flag as
false: its next step is the `g_int` branch. -/
def interrupt_schedule : List Event :=
  [.worker 0 demo_hit, .worker 0 demo_hit, .sigint, .main]

/-- After the forced store, worker 0 finds its candidate in the set and makes its exchange. -/
def late_hit_schedule : List Event :=
  [.worker 0 demo_hit, .worker 0 demo_hit, .worker 1 demo_miss]

/-- The state right after the coordinator's next step, taken after the schedule `es`. -/
def after_main_step (ht : HashTable) (nthreads : Nat) (es : List Event) : Search :=
  step (run (search_init ht nthreads) es) Event.main

/-! ## Theorems -/

theorem hex_alphabet_eq :
    hex_alphabet = [48, 49, 50, 51, 52, 53, 54, 55, 56, 57, 97, 98, 99, 100, 101, 102,
      65, 66, 67, 68, 69, 70] := by
  decide

theorem isxdigit_iff_mem (c : Nat) : isxdigit c = true ↔ c ∈ hex_alphabet := by
  rw [hex_alphabet_eq]
  simp only [isxdigit, List.mem_cons, Bool.or_eq_true, Bool.and_eq_true,
    decide_eq_true_eq, List.mem_nil_iff, or_false]
  omega

theorem all_range_getD (p : Nat → Bool) (s : List Nat) :
    (List.range s.length).all (fun i => p (s.getD i 0)) = true ↔ ∀ c ∈ s, p c = true := by
  simp only [List.all_eq_true, List.mem_range]
  constructor
  · intro h c hc
    obtain ⟨i, hi, rfl⟩ := List.getElem_of_mem hc
    have := h i hi
    rwa [List.getD_eq_getElem s 0 hi] at this
  · intro h i hi
    rw [List.getD_eq_getElem s 0 hi]
    exact h _ (List.getElem_mem hi)

theorem looks_like_len_hex_eq_one (s : List Nat) (want : Nat) :
    looks_like_len_hex s want = 1 ↔ s.length = want ∧ ∀ c ∈ s, isxdigit c = true := by
  unfold looks_like_len_hex
  by_cases hl : s.length = want
  · subst hl
    simp only [bne_self_eq_false, Bool.false_eq_true, if_false, true_and]
    rw [← all_range_getD]
    split <;> simp_all
  · simp [hl]

theorem looks_like_len_hex_cases (s : List Nat) (want : Nat) :
    looks_like_len_hex s want = 0 ∨ looks_like_len_hex s want = 1 := by
  unfold looks_like_len_hex
  split
  · exact Or.inl rfl
  · split
    · exact Or.inr rfl
    · exact Or.inl rfl

theorem prefix_two_iff (a b : Nat) (s : List Nat) (ha : a ≠ 0) (hb : b ≠ 0) :
    [a, b] <+: s ↔ s.getD 0 0 = a ∧ s.getD 1 0 = b := by
  match s with
  | [] => simp [ha.symm]
  | [x] => simp [hb.symm, List.prefix_cons_inj]
  | x :: y :: t => simp [List.cons_prefix_cons, eq_comm]

theorem looks_like_spec (s : List Nat) :
    (looks_like_compressed_pubkey s = 1 ↔
      s.length = 66 ∧ (∀ c ∈ s, c ∈ hex_alphabet) ∧
        (['0', '2'].map Char.toNat <+: s ∨ ['0', '3'].map Char.toNat <+: s)) ∧
    (looks_like_compressed_pubkey s ≠ 1 → looks_like_compressed_pubkey s = 0) := by
  have e : ['0', '2'].map Char.toNat = [48, 50] ∧ ['0', '3'].map Char.toNat = [48, 51] := by
    decide
  rw [e.1, e.2, prefix_two_iff 48 50 s (by decide) (by decide),
    prefix_two_iff 48 51 s (by decide) (by decide)]
  unfold looks_like_compressed_pubkey
  rcases looks_like_len_hex_cases s KEY_HEX_LEN with h0 | h1
  · have hne : ¬ (s.length = 66 ∧ ∀ c ∈ s, isxdigit c = true) := by
      intro hc
      have := (looks_like_len_hex_eq_one s KEY_HEX_LEN).2 hc
      omega
    simp only [h0, beq_self_eq_true, if_true]
    refine ⟨⟨fun h => absurd h (by decide), fun h => ?_⟩, by simp⟩
    exact absurd ⟨h.1, fun c hc => (isxdigit_iff_mem c).2 (h.2.1 c hc)⟩ hne
  · have hx := (looks_like_len_hex_eq_one s KEY_HEX_LEN).1 h1
    have hx2 : ∀ c ∈ s, c ∈ hex_alphabet := fun c hc => (isxdigit_iff_mem c).1 (hx.2 c hc)
    have hlen : s.length = 66 := hx.1
    simp only [h1]
    by_cases hp : s.getD 0 0 = 48 ∧ (s.getD 1 0 = 50 ∨ s.getD 1 0 = 51)
    · have : (s.getD 0 0 == 48 && (s.getD 1 0 == 50 || s.getD 1 0 == 51)) = true := by
        simpa using hp
      simp only [this, if_true]
      refine ⟨⟨fun _ => ⟨hlen, hx2, ?_⟩, fun _ => by simp⟩, by simp⟩
      rcases hp with ⟨h0, h2 | h3⟩
      · exact Or.inl ⟨h0, h2⟩
      · exact Or.inr ⟨h0, h3⟩
    · have : (s.getD 0 0 == 48 && (s.getD 1 0 == 50 || s.getD 1 0 == 51)) = false := by
        simpa using hp
      simp only [this]
      refine ⟨⟨fun h => absurd h (by simp), fun h => ?_⟩, by simp⟩
      exfalso; apply hp
      rcases h.2.2 with h2 | h3
      · exact ⟨h2.1, Or.inl h2.2⟩
      · exact ⟨h3.1, Or.inr h3.2⟩

/-- C8. `looks_like_compressed_pubkey(s)` returns 1 exactly when `s` has 66 characters, all of
them hexadecimal digits (`0-9`, `a-f`, `A-F`), and starts with "02" or "03"; otherwise it
returns 0. -/
theorem looks_like_compressed_pubkey_iff (s : List Nat) :
    (looks_like_compressed_pubkey s = 1 ↔
      s.length = 66 ∧ (∀ c ∈ s, c ∈ hex_alphabet) ∧
        (['0', '2'].map Char.toNat <+: s ∨ ['0', '3'].map Char.toNat <+: s)) ∧
    (looks_like_compressed_pubkey s = 1 ∨ looks_like_compressed_pubkey s = 0) := by
  refine ⟨(looks_like_spec s).1, ?_⟩
  by_cases h : looks_like_compressed_pubkey s = 1
  · exact Or.inl h
  · exact Or.inr ((looks_like_spec s).2 h)

/-- C8, at concrete inputs: a valid key, a key with the prefix "04", and a short string. -/
theorem looks_like_compressed_pubkey_iff_witness :
    looks_like_compressed_pubkey (line_of ['0', '3'] 'b' 64) = 1 ∧
    looks_like_compressed_pubkey (line_of ['0', '4'] 'b' 64) = 0 ∧
    looks_like_compressed_pubkey (line_of ['0', '2'] 'b' 63) = 0 ∧
    (line_of ['0', '3'] 'b' 64).length = 66 :=
  ⟨by decide, by decide, by decide,
    ((looks_like_compressed_pubkey_iff (line_of ['0', '3'] 'b' 64)).1.1 (by decide)).1⟩

/-! ### The reserve computation -/

theorem reserve_loop_pow (w vc : Nat) (hw : 32 ≤ w) (hvc : vc ≤ 2 ^ 30) :
    ∀ fuel k, k ≤ 31 → 32 ≤ fuel + k → (k = 0 ∨ 2 ^ (k - 1) < 2 * vc) →
      ∃ m, reserve_loop w vc fuel (2 ^ k) = some (2 ^ m) ∧ m ≤ 31 ∧ 2 * vc ≤ 2 ^ m ∧
        (m = 0 ∨ 2 ^ (m - 1) < 2 * vc) := by
  have h31 : (2 : Nat) ^ 31 < 2 ^ w := Nat.pow_lt_pow_right (by norm_num) (by omega)
  have hmod : (vc * 2) % 2 ^ w = 2 * vc := by
    rw [Nat.mod_eq_of_lt (by omega)]; omega
  intro fuel
  induction fuel with
  | zero => intro k hk hf; omega
  | succ fuel ih =>
    intro k hk hf hprev
    unfold reserve_loop
    rw [hmod]
    by_cases hlt : 2 ^ k < 2 * vc
    · rw [if_pos hlt]
      have hk30 : k < 31 := by
        by_contra hge
        have : k = 31 := by omega
        subst this
        omega
      have hle : (2 : Nat) ^ (k + 1) ≤ 2 ^ 31 := Nat.pow_le_pow_right (by norm_num) (by omega)
      have hsh : (2 ^ k <<< 1) % 2 ^ w = 2 ^ (k + 1) := by
        rw [Nat.shiftLeft_eq, pow_one, ← pow_succ, Nat.mod_eq_of_lt (by omega)]
      rw [hsh]
      exact ih (k + 1) (by omega) (by omega) (Or.inr (by simpa using hlt))
    · rw [if_neg hlt]
      exact ⟨k, rfl, hk, by omega, hprev⟩

/-- C5. For a count `valid_count ≤ 2^30` (and a `size_t` of at least 32 bits) the sizing loop
terminates (32 evaluations of its condition are enough) and the capacity handed to `ht_reserve`
is a power of two, at least `2 * valid_count`, and the smallest such power of two; it is 1 when
`valid_count` is 0. -/
theorem reserve_is_least_pow2 (w valid_count fuel : Nat) (hw : 32 ≤ w)
    (hvc : valid_count ≤ 2 ^ 30) (hfuel : 32 ≤ fuel) :
    ∃ k, reserve_arg w valid_count fuel = some (2 ^ k) ∧ 2 * valid_count ≤ 2 ^ k ∧
      (∀ j, 2 * valid_count ≤ 2 ^ j → 2 ^ k ≤ 2 ^ j) ∧ (valid_count = 0 → 2 ^ k = 1) := by
  obtain ⟨m, hm, hm31, hge, hmin⟩ :=
    reserve_loop_pow w valid_count hw hvc fuel 0 (by omega) (by omega) (Or.inl rfl)
  have h31 : (2 : Nat) ^ m ≤ 2 ^ 31 := Nat.pow_le_pow_right (by norm_num) hm31
  refine ⟨m, ?_, hge, ?_, ?_⟩
  · unfold reserve_arg
    rw [show (1 : Nat) = 2 ^ 0 from rfl, hm]
    simp only [Option.map_some']
    rw [Nat.mod_eq_of_lt (by omega)]
  · intro j hj
    rcases hmin with h0 | hlt
    · subst h0; exact Nat.one_le_two_pow
    · have : 2 ^ (m - 1) < 2 ^ j := by omega
      have hmj : m - 1 < j := (Nat.pow_lt_pow_iff_right (by norm_num)).1 this
      exact Nat.pow_le_pow_right (by norm_num) (by omega)
  · intro h0
    rcases hmin with hz | hlt
    · subst hz; rfl
    · simp [h0] at hlt

/-- C5, at a concrete input: three valid lines on a 64-bit `size_t` give capacity 8. -/
theorem reserve_is_least_pow2_witness :
    ∃ k, reserve_arg 64 3 40 = some (2 ^ k) ∧ 2 * 3 ≤ 2 ^ k ∧
      (∀ j, 2 * 3 ≤ 2 ^ j → 2 ^ k ≤ 2 ^ j) ∧ (3 = 0 → 2 ^ k = 1) :=
  reserve_is_least_pow2 64 3 40 (by decide) (by norm_num) (by decide)

/-! ### The load pass -/

theorem nonblank_lines_cons (raw : List Nat) (rest : List (List Nat)) :
    nonblank_lines (raw :: rest) =
      if (trimmed raw).getD 0 0 == 0 then nonblank_lines rest
      else trimmed raw :: nonblank_lines rest := by
  unfold nonblank_lines
  rw [List.map_cons, List.filter_cons]
  by_cases h : (trimmed raw).getD 0 0 = 0 <;> simp [h]

theorem foldl_load_step (v : Bool) (sl : Nat → List Nat) (file : List (List Nat)) :
    ∀ st, file.foldl (load_step v sl) st = (nonblank_lines file).foldl (load_body v sl) st := by
  induction file with
  | nil => intro st; rfl
  | cons raw rest ih =>
    intro st
    rw [List.foldl_cons, nonblank_lines_cons, ih]
    unfold load_step trimmed
    dsimp only
    by_cases h : ((lstrip_inplace (rstrip (cstr raw))).getD 0 0 == 0) = true
    · rw [if_pos h, if_pos h]
    · rw [if_neg h, if_neg h, List.foldl_cons]

theorem make_keybuf_of_len (l slack : List Nat) (h : l.length = 66) :
    make_keybuf_from_hex (l ++ 0 :: slack) = l ++ [0] := by
  unfold make_keybuf_from_hex KEY_HEX_LEN
  rw [← h, List.take_left]

theorem looks_like_length (l : List Nat) (h : looks_like_compressed_pubkey l ≠ 0) :
    l.length = 66 := by
  have h1 : looks_like_compressed_pubkey l = 1 := by
    by_contra hne
    exact h ((looks_like_spec l).2 hne)
  exact ((looks_like_spec l).1.1 h1).1

theorem load_body_inv (v : Bool) (sl : Nat → List Nat) (st : LoadState) (line : List Nat)
    (n : Nat) (h : LoadInv st n) : LoadInv (load_body v sl st line) (n + 1) := by
  obtain ⟨hnd, hmem, hl, hn⟩ := h
  unfold load_body
  dsimp only
  generalize (if (!st.bom_checked) = true then strip_utf8_bom_once line else line) = line1
  generalize make_keybuf_from_hex (uppercase_inplace line1 ++ 0 :: sl st.inserts.length) = kb
  unfold ht_insert
  by_cases hv : (v && looks_like_compressed_pubkey line1 == 0) = true
  · rw [if_pos hv]
    exact ⟨hnd, hmem, hl, by simp only; omega⟩
  · rw [if_neg hv]
    by_cases hin : kb ∈ st.ht.keys
    · simp only [if_pos hin]
      refine ⟨hnd, ?_, hl, by simp only [Nat.reduceBEq, Bool.false_eq_true, if_false]; omega⟩
      intro k
      simp only [Nat.reduceBEq, Bool.false_eq_true, if_false, List.mem_append, List.mem_singleton]
      constructor
      · intro hk; exact Or.inl ((hmem k).1 hk)
      · rintro (hk | rfl)
        · exact (hmem k).2 hk
        · exact hin
    · simp only [if_neg hin, beq_self_eq_true, if_true]
      refine ⟨List.nodup_cons.2 ⟨hin, hnd⟩, ?_, by simp only [List.length_cons]; omega,
        by simp only; omega⟩
      intro k
      simp only [List.mem_append, List.mem_singleton, List.mem_cons]
      rw [hmem k]
      tauto

theorem foldl_load_body_inv (v : Bool) (sl : Nat → List Nat) (ls : List (List Nat)) :
    ∀ st n, LoadInv st n → LoadInv (ls.foldl (load_body v sl) st) (n + ls.length) := by
  induction ls with
  | nil => intro st n h; simpa using h
  | cons l rest ih =>
    intro st n h
    rw [List.foldl_cons, List.length_cons]
    have := ih _ _ (load_body_inv v sl st l n h)
    rwa [show n + (rest.length + 1) = n + 1 + rest.length by omega]

theorem load_init_inv : LoadInv load_init 0 := by
  unfold LoadInv load_init ht_setup
  simp

theorem load_body_checked_valid (sl : Nat → List Nat) (st : LoadState) (line : List Nat)
    (hb : st.bom_checked = true) :
    (load_body true sl st line).bom_checked = true ∧
    (load_body true sl st line).inserts =
      st.inserts ++ ([line].filter (fun l => looks_like_compressed_pubkey l != 0)).map
        (fun l => uppercase_inplace l ++ [0]) := by
  unfold load_body
  simp only [hb, Bool.not_true, Bool.false_eq_true, if_false, Bool.true_and]
  by_cases hv : looks_like_compressed_pubkey line = 0
  · simp [hv]
  · have hlen : (uppercase_inplace line).length = 66 := by
      unfold uppercase_inplace
      rw [List.length_map]
      exact looks_like_length line hv
    rw [make_keybuf_of_len _ _ hlen]
    have hv2 : (looks_like_compressed_pubkey line == 0) = false := by simpa using hv
    simp only [hv2, Bool.false_eq_true, if_false]
    split <;> simp [hv]

theorem foldl_load_body_checked_valid (sl : Nat → List Nat) (ls : List (List Nat)) :
    ∀ st, st.bom_checked = true →
      (ls.foldl (load_body true sl) st).inserts =
        st.inserts ++ (ls.filter (fun l => looks_like_compressed_pubkey l != 0)).map
          (fun l => uppercase_inplace l ++ [0]) := by
  induction ls with
  | nil => intro st _; simp
  | cons l rest ih =>
    intro st hb
    obtain ⟨h1, h2⟩ := load_body_checked_valid sl st l hb
    rw [List.foldl_cons, ih _ h1, h2, List.append_assoc, ← List.map_append, ← List.filter_append]
    rfl

theorem load_body_unchecked (v : Bool) (sl : Nat → List Nat) (st : LoadState) (line : List Nat)
    (hb : st.bom_checked = false) :
    load_body v sl st line =
      load_body v sl { st with bom_checked := true } (strip_utf8_bom_once line) := by
  unfold load_body
  simp [hb]

/-- With validation on, the keys handed to `ht_insert` are the valid lines in uppercase, each
followed by the terminator, in file order. -/
theorem load_pass_inserts (sl : Nat → List Nat) (file : List (List Nat)) :
    (load_pass true sl file).inserts =
      (valid_lines file).map (fun l => uppercase_inplace l ++ [0]) := by
  unfold load_pass valid_lines prepared_lines
  rw [foldl_load_step]
  cases hnb : nonblank_lines file with
  | nil => rfl
  | cons first rest =>
    rw [List.foldl_cons, load_body_unchecked true sl load_init first rfl, ← List.foldl_cons,
      foldl_load_body_checked_valid sl _ _ rfl]
    rfl

theorem load_pass_inv (v : Bool) (sl : Nat → List Nat) (file : List (List Nat)) :
    LoadInv (load_pass v sl file) (nonblank_lines file).length := by
  unfold load_pass
  rw [foldl_load_step]
  have := foldl_load_body_inv v sl (nonblank_lines file) load_init 0 load_init_inv
  simpa using this

theorem append_nul_injective : Function.Injective (fun l : List Nat => l ++ [0]) := by
  intro a b h
  exact List.append_cancel_right h

/-- With validation on, the set ends up with one entry per distinct key. -/
theorem load_pass_loaded (sl : Nat → List Nat) (file : List (List Nat)) :
    (load_pass true sl file).loaded = (distinct_keys file).length := by
  obtain ⟨hnd, hmem, hl, _⟩ := load_pass_inv true sl file
  rw [hl, ← List.toFinset_card_of_nodup hnd]
  have : (load_pass true sl file).ht.keys.toFinset = (load_pass true sl file).inserts.toFinset := by
    ext k; simp [hmem k]
  rw [this, List.card_toFinset, load_pass_inserts]
  unfold distinct_keys uppercase_inplace
  have e : (List.map (fun l => List.map toupper l ++ [0]) (valid_lines file)) =
      List.map (fun l : List Nat => l ++ [0]) (List.map (fun l => List.map toupper l)
        (valid_lines file)) := by
    rw [List.map_map]; rfl
  rw [e, List.dedup_map_of_injective append_nul_injective, List.length_map]

/-- C4 as stated fails: a blank line is an input line, yet it is neither loaded nor counted as
skipped. The file is an empty line followed by one valid key. -/
theorem load_skipped_blank_counterexample :
    (load_pass true (fun _ => []) [[10], line_of ['0', '2'] 'A' 64 ++ [10]]).loaded = 1 ∧
    (load_pass true (fun _ => []) [[10], line_of ['0', '2'] 'A' 64 ++ [10]]).skipped ≠
      [[10], line_of ['0', '2'] 'A' 64 ++ [10]].length -
        (distinct_keys [[10], line_of ['0', '2'] 'A' 64 ++ [10]]).length := by
  decide

/-- C4 (amended). With validation on, when the load loop finishes `loaded` is the number of
distinct keys among the valid lines and `skipped` is the number of non-blank input lines minus
that number; every line is processed. The lines K1, K2, K1 give loaded = 2 and skipped = 1. -/
theorem load_pass_counts (slack : Nat → List Nat) (file : List (List Nat)) :
    (load_pass true slack file).loaded = (distinct_keys file).length ∧
    (load_pass true slack file).skipped =
      (nonblank_lines file).length - (distinct_keys file).length ∧
    (distinct_keys file).length ≤ (nonblank_lines file).length ∧
    (load_pass true slack [line_of ['0', '2'] 'A' 64 ++ [10], line_of ['0', '3'] 'B' 64 ++ [10],
        line_of ['0', '2'] 'A' 64 ++ [10]]).loaded = 2 ∧
    (load_pass true slack [line_of ['0', '2'] 'A' 64 ++ [10], line_of ['0', '3'] 'B' 64 ++ [10],
        line_of ['0', '2'] 'A' 64 ++ [10]]).skipped = 1 := by
  have key : ∀ f : List (List Nat),
      (load_pass true slack f).loaded = (distinct_keys f).length ∧
      (load_pass true slack f).skipped = (nonblank_lines f).length - (distinct_keys f).length ∧
      (distinct_keys f).length ≤ (nonblank_lines f).length := by
    intro f
    obtain ⟨_, _, _, hn⟩ := load_pass_inv true slack f
    have hl := load_pass_loaded slack f
    omega
  refine ⟨(key file).1, (key file).2.1, (key file).2.2, ?_, ?_⟩
  · rw [(key _).1]; decide
  · rw [(key _).2.1]; decide

theorem toupper_mem_upper (c : Nat) (h : isxdigit c = true) : toupper c ∈ upper_hex_alphabet := by
  have hc : c < 103 := by
    simp only [isxdigit, Bool.or_eq_true, Bool.and_eq_true, decide_eq_true_eq] at h
    omega
  revert h
  revert c
  decide

theorem upper_ne_zero (c : Nat) (h : c ∈ upper_hex_alphabet) : c ≠ 0 := by
  rintro rfl
  revert h
  decide

theorem cstr_append_nul (l : List Nat) (h : ∀ c ∈ l, c ≠ 0) : cstr (l ++ [0]) = l := by
  unfold cstr
  rw [List.takeWhile_append_of_pos (fun a ha => by simpa using h a ha)]
  simp

/-- C7 (amended). With validation on (`validate_db = 1`), every key buffer the load pass hands
to `ht_insert` holds a string of exactly `KEY_HEX_LEN = 66` characters, all of them among `0-9`
and `A-F`, followed by the terminator. -/
theorem load_keys_canonical (slack : Nat → List Nat) (file : List (List Nat)) (k : List Nat)
    (hk : k ∈ (load_pass true slack file).inserts) :
    k.length = KEY_STORE_BYTES ∧ k = cstr k ++ [0] ∧ (cstr k).length = KEY_HEX_LEN ∧
      ∀ c ∈ cstr k, c ∈ upper_hex_alphabet := by
  rw [load_pass_inserts, List.mem_map] at hk
  obtain ⟨l, hl, rfl⟩ := hk
  have hv : looks_like_compressed_pubkey l ≠ 0 := by
    have := (List.mem_filter.1 hl).2
    simpa using this
  have h1 : looks_like_compressed_pubkey l = 1 := by
    by_contra hne
    exact hv ((looks_like_spec l).2 hne)
  obtain ⟨hlen, hhex, _⟩ := (looks_like_spec l).1.1 h1
  have hup : ∀ c ∈ uppercase_inplace l, c ∈ upper_hex_alphabet := by
    intro c hc
    unfold uppercase_inplace at hc
    obtain ⟨d, hd, rfl⟩ := List.mem_map.1 hc
    exact toupper_mem_upper d ((isxdigit_iff_mem d).2 (hhex d hd))
  have hcs : cstr (uppercase_inplace l ++ [0]) = uppercase_inplace l :=
    cstr_append_nul _ (fun c hc => upper_ne_zero c (hup c hc))
  have hl2 : (uppercase_inplace l).length = 66 := by
    unfold uppercase_inplace; rw [List.length_map]; exact hlen
  rw [hcs]
  refine ⟨?_, rfl, hl2, hup⟩
  rw [List.length_append, hl2]; rfl

/-- C7, at a concrete input: the one key of a file with one valid lowercase line. -/
theorem load_keys_canonical_witness :
    line_of ['0', '2'] 'A' 64 ++ [0] ∈
        (load_pass true (fun _ => []) [line_of ['0', '2'] 'a' 64 ++ [10]]).inserts ∧
      ((line_of ['0', '2'] 'A' 64 ++ [0]).length = KEY_STORE_BYTES ∧
        line_of ['0', '2'] 'A' 64 ++ [0] = cstr (line_of ['0', '2'] 'A' 64 ++ [0]) ++ [0] ∧
        (cstr (line_of ['0', '2'] 'A' 64 ++ [0])).length = KEY_HEX_LEN ∧
        ∀ c ∈ cstr (line_of ['0', '2'] 'A' 64 ++ [0]), c ∈ upper_hex_alphabet) :=
  ⟨by decide, load_keys_canonical (fun _ => []) [line_of ['0', '2'] 'a' 64 ++ [10]] _ (by decide)⟩

/-- C7 as stated fails with validation off (`validate_db = 0`): a line of 66 letters `g` is
handed to `ht_insert` as 66 letters `G`, none of which is a hexadecimal digit. -/
theorem load_keys_unvalidated_counterexample :
    ¬ ∀ k ∈ (load_pass false (fun _ => []) [line_of [] 'g' 66 ++ [10]]).inserts,
        (cstr k).length = KEY_HEX_LEN ∧ ∀ c ∈ cstr k, c ∈ upper_hex_alphabet := by
  decide

/-- C6 fails on the code: on a file whose first line is a byte-order marker followed by a valid
key, the counting pass (which does not strip the marker) counts no valid line, while the load
pass (which strips it) calls `ht_insert` once; the capacity reserved from that count is 1. -/
theorem count_pass_misses_bom :
    count_pass true [[0xEF, 0xBB, 0xBF] ++ line_of ['0', '2'] 'A' 64 ++ [10]] = 0 ∧
    (load_pass true (fun _ => [])
      [[0xEF, 0xBB, 0xBF] ++ line_of ['0', '2'] 'A' 64 ++ [10]]).inserts.length = 1 ∧
    (load_pass true (fun _ => [])
      [[0xEF, 0xBB, 0xBF] ++ line_of ['0', '2'] 'A' 64 ++ [10]]).loaded = 1 ∧
    reserve_arg 64 (count_pass true [[0xEF, 0xBB, 0xBF] ++ line_of ['0', '2'] 'A' 64 ++ [10]]) 32
      = some 1 := by
  decide

theorem foldl_count_step (v : Bool) (file : List (List Nat)) :
    ∀ n, file.foldl (count_step v) n =
      n + ((nonblank_lines file).filter
        (fun l => !v || looks_like_compressed_pubkey l != 0)).length := by
  induction file with
  | nil => intro n; rfl
  | cons raw rest ih =>
    intro n
    rw [List.foldl_cons, nonblank_lines_cons, ih]
    unfold count_step trimmed
    dsimp only
    by_cases h : ((lstrip_inplace (rstrip (cstr raw))).getD 0 0 == 0) = true
    · rw [if_pos h, if_pos h]
    · rw [if_neg h, if_neg h, List.filter_cons]
      by_cases hv : (!v || looks_like_compressed_pubkey (lstrip_inplace (rstrip (cstr raw))) != 0)
          = true
      · rw [if_pos hv, if_pos hv, List.length_cons]; omega
      · rw [if_neg hv, if_neg hv]

theorem load_body_checked_length (v : Bool) (sl : Nat → List Nat) (st : LoadState)
    (line : List Nat) (hb : st.bom_checked = true) :
    (load_body v sl st line).bom_checked = true ∧
    (load_body v sl st line).inserts.length =
      st.inserts.length + ([line].filter
        (fun l => !v || looks_like_compressed_pubkey l != 0)).length := by
  unfold load_body
  simp only [hb, Bool.not_true, Bool.false_eq_true, if_false]
  by_cases hv : (v && looks_like_compressed_pubkey line == 0) = true
  · rw [if_pos hv]
    have : (!v || looks_like_compressed_pubkey line != 0) = false := by
      revert hv; cases v <;> simp
    simp [this]
  · rw [if_neg hv]
    have : (!v || looks_like_compressed_pubkey line != 0) = true := by
      revert hv; cases v <;> simp
    split <;> simp [this]

theorem foldl_load_body_checked_length (v : Bool) (sl : Nat → List Nat) (ls : List (List Nat)) :
    ∀ st, st.bom_checked = true →
      (ls.foldl (load_body v sl) st).inserts.length =
        st.inserts.length + (ls.filter
          (fun l => !v || looks_like_compressed_pubkey l != 0)).length := by
  induction ls with
  | nil => intro st _; simp
  | cons l rest ih =>
    intro st hb
    obtain ⟨h1, h2⟩ := load_body_checked_length v sl st l hb
    rw [List.foldl_cons, ih _ h1, h2, Nat.add_assoc, ← List.length_append, ← List.filter_append]
    rfl

theorem load_pass_inserts_length (v : Bool) (sl : Nat → List Nat) (file : List (List Nat)) :
    (load_pass v sl file).inserts.length =
      ((prepared_lines file).filter
        (fun l => !v || looks_like_compressed_pubkey l != 0)).length := by
  unfold load_pass prepared_lines
  rw [foldl_load_step]
  cases hnb : nonblank_lines file with
  | nil => rfl
  | cons first rest =>
    rw [List.foldl_cons, load_body_unchecked v sl load_init first rfl, ← List.foldl_cons,
      foldl_load_body_checked_length v sl _ _ rfl]
    simp [load_init]

/-- What does hold of C6: the count of the first pass equals the number of `ht_insert` calls of
the load pass when validation is off, and also when stripping the byte-order marker changes
nothing (the first non-blank line does not start with one). -/
theorem count_pass_exact_without_bom (v : Bool) (slack : Nat → List Nat)
    (file : List (List Nat)) (h : v = false ∨ prepared_lines file = nonblank_lines file) :
    count_pass v file = (load_pass v slack file).inserts.length := by
  unfold count_pass
  rw [foldl_count_step, load_pass_inserts_length, Nat.zero_add]
  rcases h with rfl | h
  · simp only [Bool.not_false, Bool.true_or, List.filter_true]
    unfold prepared_lines
    cases nonblank_lines file <;> rfl
  · rw [h]

/-! ### Loader key against worker key -/

theorem xdigit_value (a : Nat) (h : isxdigit a = true) :
    ∃ va, va < 16 ∧ hex_digit_value a = some va ∧ toupper a = H.getD va 0 := by
  have hc : a < 103 := by
    simp only [isxdigit, Bool.or_eq_true, Bool.and_eq_true, decide_eq_true_eq] at h
    omega
  revert h
  revert a
  decide

theorem H_injective : ∀ u, u < 16 → ∀ v, v < 16 → H.getD u 0 = H.getD v 0 → u = v := by
  decide

theorem nibbles (p : Nat) (hp : p < 256) :
    (p >>> 4) &&& 0xF = p / 16 ∧ p &&& 0xF = p % 16 := by
  have h15 : (0xF : Nat) = 2 ^ 4 - 1 := by norm_num
  rw [h15, Nat.and_pow_two_sub_one_eq_mod, Nat.and_pow_two_sub_one_eq_mod,
    Nat.shiftRight_eq_div_pow]
  constructor
  · norm_num; omega
  · norm_num

theorem hex_pairs_cons (p : Nat) (ps : List Nat) :
    hex_pairs (p :: ps) =
      H.getD ((p >>> 4) &&& 0xF) 0 :: H.getD (p &&& 0xF) 0 :: hex_pairs ps := by
  simp [hex_pairs]

theorem hex_pairs_length (P : List Nat) : (hex_pairs P).length = 2 * P.length := by
  induction P with
  | nil => rfl
  | cons p ps ih => rw [hex_pairs_cons, List.length_cons, List.length_cons, ih, List.length_cons]; omega

theorem upper_eq_hex_pairs_iff : ∀ (L P : List Nat), (∀ b ∈ P, b < 256) →
    (∀ c ∈ L, isxdigit c = true) → (uppercase_inplace L = hex_pairs P ↔ spells L P)
  | [], P, _, _ => by
    unfold spells hex_decode uppercase_inplace
    cases P with
    | nil => simp [hex_pairs]
    | cons p ps => rw [hex_pairs_cons]; simp
  | [a], P, _, _ => by
    unfold spells hex_decode uppercase_inplace
    cases P with
    | nil => simp [hex_pairs]
    | cons p ps => rw [hex_pairs_cons]; simp
  | a :: b :: rest, P, hP, hL => by
    obtain ⟨va, hva, hda, hua⟩ := xdigit_value a (hL a (by simp))
    obtain ⟨vb, hvb, hdb, hub⟩ := xdigit_value b (hL b (by simp))
    unfold spells hex_decode
    rw [hda, hdb]
    cases P with
    | nil =>
      have : uppercase_inplace (a :: b :: rest) ≠ hex_pairs [] := by
        simp [uppercase_inplace, hex_pairs]
      cases hex_decode rest <;> simp [this]
    | cons p ps =>
      have ih := upper_eq_hex_pairs_iff rest ps (fun x hx => hP x (by simp [hx]))
        (fun c hc => hL c (by simp [hc]))
      have hp : p < 256 := hP p (by simp)
      obtain ⟨n1, n2⟩ := nibbles p hp
      rw [hex_pairs_cons, n1, n2]
      have hup : uppercase_inplace (a :: b :: rest) =
          toupper a :: toupper b :: uppercase_inplace rest := by simp [uppercase_inplace]
      rw [hup, hua, hub]
      simp only [List.cons.injEq]
      unfold spells at ih
      rw [ih]
      have e1 : H.getD va 0 = H.getD (p / 16) 0 ↔ va = p / 16 :=
        ⟨H_injective va hva (p / 16) (by omega), fun h => by rw [h]⟩
      have e2 : H.getD vb 0 = H.getD (p % 16) 0 ↔ vb = p % 16 :=
        ⟨H_injective vb hvb (p % 16) (by omega), fun h => by rw [h]⟩
      rw [e1, e2]
      cases hd : hex_decode rest with
      | none => simp
      | some bs =>
        simp only [Option.some.injEq, List.cons.injEq]
        constructor
        · rintro ⟨h1, h2, h3⟩; exact ⟨by omega, h3⟩
        · rintro ⟨h1, h3⟩; exact ⟨by omega, by omega, h3⟩

theorem make_keybuf_bytes_to_hex (P : List Nat) (hP : P.length = COMP_PUB_LEN) :
    make_keybuf_from_hex (bytes_to_hex P) = hex_pairs P ++ [0] := by
  have hl : (hex_pairs P).length = 66 := by rw [hex_pairs_length, hP]; rfl
  unfold make_keybuf_from_hex bytes_to_hex KEY_HEX_LEN
  rw [← hl, List.take_left]

theorem looks_like_xdigits (L : List Nat) (h : looks_like_compressed_pubkey L ≠ 0) :
    L.length = 66 ∧ ∀ c ∈ L, isxdigit c = true := by
  have h1 : looks_like_compressed_pubkey L = 1 := by
    by_contra hne
    exact h ((looks_like_spec L).2 hne)
  obtain ⟨hlen, hhex, _⟩ := (looks_like_spec L).1.1 h1
  exact ⟨hlen, fun c hc => (isxdigit_iff_mem c).2 (hhex c hc)⟩

/-- C2. For a 33-byte public key `P` and a line `L` accepted by `looks_like_compressed_pubkey`,
the key buffer the loader stores for `L` equals the key buffer the worker queries for `P`
exactly when `L` spells `P` in hexadecimal, in any letter case. Hence, after a load with
validation on, the worker's query for `P` is a hit exactly when some valid line spells `P`. -/
theorem loader_key_eq_worker_key_iff (P : List Nat) (hP : P.length = COMP_PUB_LEN)
    (hbytes : ∀ b ∈ P, b < 256) :
    (∀ (L slack : List Nat), looks_like_compressed_pubkey L = 1 →
      (make_keybuf_from_hex (uppercase_inplace L ++ 0 :: slack) =
          make_keybuf_from_hex (bytes_to_hex P) ↔ L.length = 66 ∧ spells L P)) ∧
    (∀ (slack : Nat → List Nat) (file : List (List Nat)),
      ht_contains (load_pass true slack file).ht (make_keybuf_from_hex (bytes_to_hex P)) = true ↔
        ∃ L ∈ valid_lines file, spells L P) := by
  have core : ∀ L : List Nat, looks_like_compressed_pubkey L ≠ 0 →
      (uppercase_inplace L ++ [0] = hex_pairs P ++ [0] ↔ spells L P) := by
    intro L hL
    rw [List.append_left_inj]
    exact upper_eq_hex_pairs_iff L P hbytes (looks_like_xdigits L hL).2
  constructor
  · intro L slack hL
    have hne : looks_like_compressed_pubkey L ≠ 0 := by rw [hL]; decide
    have hlen : (uppercase_inplace L).length = 66 := by
      unfold uppercase_inplace; rw [List.length_map]; exact (looks_like_xdigits L hne).1
    rw [make_keybuf_of_len _ _ hlen, make_keybuf_bytes_to_hex P hP, core L hne]
    exact ⟨fun h => ⟨(looks_like_xdigits L hne).1, h⟩, fun h => h.2⟩
  · intro slack file
    obtain ⟨_, hmem, _, _⟩ := load_pass_inv true slack file
    unfold ht_contains
    rw [decide_eq_true_iff, hmem, load_pass_inserts, make_keybuf_bytes_to_hex P hP, List.mem_map]
    constructor
    · rintro ⟨L, hL, he⟩
      have hne : looks_like_compressed_pubkey L ≠ 0 := by
        simpa [valid_lines] using (List.mem_filter.1 hL).2
      exact ⟨L, hL, (core L hne).1 he⟩
    · rintro ⟨L, hL, hs⟩
      have hne : looks_like_compressed_pubkey L ≠ 0 := by
        simpa [valid_lines] using (List.mem_filter.1 hL).2
      exact ⟨L, hL, (core L hne).2 hs⟩

/-- C2, at a concrete input: the key `02 AA ... AA` against a lowercase line spelling it. -/
theorem loader_key_eq_worker_key_iff_witness :
    (2 :: List.replicate 32 170).length = COMP_PUB_LEN ∧
    (∀ b ∈ 2 :: List.replicate 32 170, b < 256) ∧
    ((∀ (L slack : List Nat), looks_like_compressed_pubkey L = 1 →
      (make_keybuf_from_hex (uppercase_inplace L ++ 0 :: slack) =
          make_keybuf_from_hex (bytes_to_hex (2 :: List.replicate 32 170)) ↔
        L.length = 66 ∧ spells L (2 :: List.replicate 32 170))) ∧
    (∀ (slack : Nat → List Nat) (file : List (List Nat)),
      ht_contains (load_pass true slack file).ht
          (make_keybuf_from_hex (bytes_to_hex (2 :: List.replicate 32 170))) = true ↔
        ∃ L ∈ valid_lines file, spells L (2 :: List.replicate 32 170))) ∧
    spells (line_of ['0', '2'] 'a' 64) (2 :: List.replicate 32 170) ∧
    looks_like_compressed_pubkey (line_of ['0', '2'] 'a' 64) = 1 :=
  ⟨by decide, by decide,
    loader_key_eq_worker_key_iff (2 :: List.replicate 32 170) (by decide) (by decide),
    by decide, by decide⟩

/-! ### The entropy pool -/

theorem sys_read_full (chunk buf : List Nat) (cap : Nat) (hc : chunk.length = cap)
    (hb : buf.length = cap) (h63 : cap < 2 ^ 63) :
    sys_read (some chunk) buf cap = (to_ssize cap, chunk) := by
  unfold sys_read to_ssize
  have ht : chunk.take cap = chunk := List.take_of_length_le (by omega)
  simp only [ht, hc, if_pos h63]
  rw [List.drop_of_length_le (by omega), List.append_nil]

theorem size_sub (cap pos : Nat) (h : pos ≤ cap) (hc : cap < 2 ^ 64) :
    (cap + 2 ^ 64 - pos) % 2 ^ 64 = cap - pos := by
  have : cap + 2 ^ 64 - pos = (cap - pos) + 2 ^ 64 := by omega
  rw [this, Nat.add_mod_right, Nat.mod_eq_of_lt (by omega)]

/-- The slice served by a draw, when the refill (if any) reads a full chunk. -/
theorem urandpool_get_slice (p : UrandPool) (n : Nat) (env : DrawEnv) (chunk : List Nat)
    (hpos : p.pos ≤ p.cap) (hn : n ≤ p.cap) (hbuf : p.buf.length = p.cap)
    (hcap : p.cap < 2 ^ 63) (hrd : env.rd = some chunk) (hchunk : chunk.length = p.cap) :
    urandpool_get p n env =
      if n ≤ p.cap - p.pos then
        ⟨{ p with pos := p.pos + n }, (p.buf.drop p.pos).take n, false⟩
      else ⟨{ p with buf := chunk, pos := n }, chunk.take n, false⟩ := by
  unfold urandpool_get
  simp only [size_sub p.cap p.pos hpos (by omega)]
  by_cases h : n ≤ p.cap - p.pos
  · rw [if_pos h, if_neg (by omega)]
    unfold pool_copy
    rw [Nat.mod_eq_of_lt (by omega)]
  · rw [if_neg h, if_pos (by omega), hrd, sys_read_full chunk p.buf p.cap hchunk hbuf hcap]
    simp only [ne_eq, not_true_eq_false, if_false]
    unfold pool_copy
    simp only [Nat.zero_add, List.drop_zero]
    rw [Nat.mod_eq_of_lt (by omega)]

/-- C10. For a pool with `pos ≤ cap` (its buffer holding `cap` bytes) and a request `n ≤ cap`,
when the refill read delivers a full chunk, `urandpool_get` returns exactly the `n` bytes
`buf[q .. q+n)` with `q+n ≤ cap`, where `q` is the old `pos` if `cap - pos ≥ n` and 0 after a
refill that replaces the whole buffer otherwise; it sets `pos = q+n`, keeps `pos ≤ cap`, and
never falls back. A following draw of `m` bytes that fits in what remains of the chunk returns
the adjacent slice `buf[q+n .. q+n+m)` of the same buffer, so the slices are disjoint. -/
theorem urandpool_get_slices (p : UrandPool) (n : Nat) (env : DrawEnv) (chunk : List Nat)
    (hpos : p.pos ≤ p.cap) (hn : n ≤ p.cap) (hbuf : p.buf.length = p.cap)
    (hcap : p.cap < 2 ^ 63) (hrd : env.rd = some chunk) (hchunk : chunk.length = p.cap) :
    ∃ q, q = (if n ≤ p.cap - p.pos then p.pos else 0) ∧
      (urandpool_get p n env).pool.buf = (if n ≤ p.cap - p.pos then p.buf else chunk) ∧
      (urandpool_get p n env).pool.buf.length = p.cap ∧
      (urandpool_get p n env).pool.cap = p.cap ∧
      (urandpool_get p n env).pool.pos = q + n ∧ q + n ≤ p.cap ∧
      (urandpool_get p n env).by_rand = false ∧
      (urandpool_get p n env).dst.length = n ∧
      (∀ i, i < n → (urandpool_get p n env).dst.getD i 0 =
        (urandpool_get p n env).pool.buf.getD (q + i) 0) ∧
      (∀ (m : Nat) (env2 : DrawEnv), m ≤ p.cap - (q + n) →
        (urandpool_get (urandpool_get p n env).pool m env2).pool.buf =
          (urandpool_get p n env).pool.buf ∧
        (urandpool_get (urandpool_get p n env).pool m env2).pool.pos = q + n + m ∧
        (urandpool_get (urandpool_get p n env).pool m env2).by_rand = false ∧
        (urandpool_get (urandpool_get p n env).pool m env2).dst.length = m ∧
        ∀ i, i < m → (urandpool_get (urandpool_get p n env).pool m env2).dst.getD i 0 =
          (urandpool_get p n env).pool.buf.getD (q + n + i) 0) := by
  have slice : ∀ (b : List Nat) (q k : Nat), q + k ≤ b.length →
      ((b.drop q).take k).length = k ∧
        ∀ i, i < k → ((b.drop q).take k).getD i 0 = b.getD (q + i) 0 := by
    intro b q k hq
    have hl : ((b.drop q).take k).length = k := by
      rw [List.length_take, List.length_drop]; omega
    refine ⟨hl, fun i hi => ?_⟩
    rw [List.getD_eq_getElem _ 0 (by omega), List.getD_eq_getElem _ 0 (by omega),
      List.getElem_take, List.getElem_drop]
  have second : ∀ (p1 : UrandPool) (m : Nat) (env2 : DrawEnv), p1.pos + m ≤ p1.cap →
      p1.cap < 2 ^ 63 → urandpool_get p1 m env2 =
        ⟨{ p1 with pos := p1.pos + m }, (p1.buf.drop p1.pos).take m, false⟩ := by
    intro p1 m env2 h1 h2
    unfold urandpool_get
    simp only [size_sub p1.cap p1.pos (by omega) (by omega)]
    rw [if_neg (by omega)]
    unfold pool_copy
    rw [Nat.mod_eq_of_lt (by omega)]
  have hg := urandpool_get_slice p n env chunk hpos hn hbuf hcap hrd hchunk
  by_cases h : n ≤ p.cap - p.pos
  · rw [if_pos h] at hg
    rw [hg]
    have s1 := slice p.buf p.pos n (by omega)
    refine ⟨p.pos, by rw [if_pos h], by rw [if_pos h], hbuf, rfl, rfl, by omega, rfl,
      s1.1, s1.2, ?_⟩
    intro m env2 hm
    have h2 := second ⟨p.fd, p.pos + n, p.cap, p.buf⟩ m env2 (by simp only; omega) hcap
    rw [h2]
    have s2 := slice p.buf (p.pos + n) m (by omega)
    exact ⟨rfl, rfl, rfl, s2.1, s2.2⟩
  · rw [if_neg h] at hg
    rw [hg]
    have s0 := slice chunk 0 n (by omega)
    simp only [List.drop_zero, Nat.zero_add] at s0
    refine ⟨0, by rw [if_neg h], by rw [if_neg h], hchunk, rfl, by simp only [Nat.zero_add],
      by omega, rfl, s0.1, ?_, ?_⟩
    · intro i hi; rw [Nat.zero_add]; exact s0.2 i hi
    · intro m env2 hm
      have h2 := second ⟨p.fd, n, p.cap, chunk⟩ m env2 (by simp only; omega) hcap
      rw [h2]
      have s1 := slice chunk n m (by omega)
      refine ⟨rfl, by simp only [Nat.zero_add], rfl, s1.1, fun i hi => ?_⟩
      rw [Nat.zero_add]; exact s1.2 i hi

/-- C10, at a concrete input: a pool of 4 bytes with 2 left, a request of 2 bytes. -/
theorem urandpool_get_slices_witness :
    (urandpool_get ⟨3, 2, 4, [1, 2, 3, 4]⟩ 2 ⟨some [5, 6, 7, 8], fun _ => 0⟩).dst = [3, 4] ∧
    (urandpool_get ⟨3, 4, 4, [1, 2, 3, 4]⟩ 2 ⟨some [5, 6, 7, 8], fun _ => 0⟩).dst = [5, 6] ∧
    ∃ q, q = (if 2 ≤ 4 - 2 then 2 else 0) ∧
      (urandpool_get ⟨3, 2, 4, [1, 2, 3, 4]⟩ 2 ⟨some [5, 6, 7, 8], fun _ => 0⟩).pool.pos = q + 2 :=
  ⟨by decide, by decide,
    (urandpool_get_slices ⟨3, 2, 4, [1, 2, 3, 4]⟩ 2 ⟨some [5, 6, 7, 8], fun _ => 0⟩ [5, 6, 7, 8]
      (by decide) (by decide) (by decide) (by norm_num) rfl (by decide)).imp
      (fun _ h => ⟨h.1, h.2.2.2.2.1⟩)⟩

/-! ### The fallback generator -/

theorem worker_draw_cases (ctx : WorkerRng) (env : DrawEnv) :
    (ctx.pool_ok = false → (worker_draw ctx env).by_rand = true ∧ (worker_draw ctx env).ctx = ctx) ∧
    ((worker_draw ctx env).by_rand = false →
      ctx.pool_ok = true ∧ (worker_draw ctx env).ctx.pool_ok = true) ∧
    (ctx.pool_ok = true → (worker_draw ctx env).by_rand = true →
      rng_view (worker_draw ctx env).ctx = rng_view ctx) := by
  refine ⟨fun h => ?_, fun h => ?_, fun h1 h2 => ?_⟩
  · unfold worker_draw; rw [h]; exact ⟨rfl, rfl⟩
  · cases hok : ctx.pool_ok with
    | false => unfold worker_draw at h; rw [hok] at h; simp at h
    | true => unfold worker_draw; rw [hok]; exact ⟨rfl, rfl⟩
  · unfold worker_draw at h2 ⊢
    rw [h1] at h2 ⊢
    simp only [if_true] at h2 ⊢
    unfold rng_view
    simp only [h1]
    unfold urandpool_get pool_copy at h2 ⊢
    dsimp only at h2 ⊢
    split
    · split
      · rfl
      · rename_i h3 h4
        rw [if_pos h3, if_neg h4] at h2
        simp at h2
    · rename_i h3
      rw [if_neg h3] at h2
      simp at h2

/-- C9 (amended). A draw made after `urandpool_init` failed (`pool_ok = 0`) is served by
`rand()` and leaves the worker state as it is, and no draw served from the pool is made or ends
with `pool_ok = 0`; a draw served by `rand()` because the refill read came back short leaves
`pool_ok = 1`, `pos` and `cap` unchanged. -/
theorem fallback_visibility (ctx : WorkerRng) (env : DrawEnv) :
    (ctx.pool_ok = false → (worker_draw ctx env).by_rand = true ∧ (worker_draw ctx env).ctx = ctx) ∧
    ((worker_draw ctx env).by_rand = false →
      ctx.pool_ok = true ∧ (worker_draw ctx env).ctx.pool_ok = true) ∧
    (ctx.pool_ok = true → (worker_draw ctx env).by_rand = true →
      rng_view (worker_draw ctx env).ctx = rng_view ctx) :=
  worker_draw_cases ctx env

/-- C9 (amended), at concrete inputs: a failed `open`, and a short refill read. -/
theorem fallback_visibility_witness :
    ((worker_rng_init (some [1, 2, 3]) (-1)).pool_ok = false ∧
      (worker_draw (worker_rng_init (some [1, 2, 3]) (-1)) short_read_env).by_rand = true) ∧
    ((⟨⟨3, 4, 4, [1, 2, 3, 4]⟩, true⟩ : WorkerRng).pool_ok = true ∧
      (worker_draw ⟨⟨3, 4, 4, [1, 2, 3, 4]⟩, true⟩ ⟨some [9], fun i => i⟩).by_rand = true ∧
      rng_view (worker_draw ⟨⟨3, 4, 4, [1, 2, 3, 4]⟩, true⟩ ⟨some [9], fun i => i⟩).ctx =
        rng_view ⟨⟨3, 4, 4, [1, 2, 3, 4]⟩, true⟩) :=
  ⟨⟨by decide,
      ((fallback_visibility (worker_rng_init (some [1, 2, 3]) (-1)) short_read_env).1
        (by decide)).1⟩,
    rfl, by decide,
    (fallback_visibility ⟨⟨3, 4, 4, [1, 2, 3, 4]⟩, true⟩ ⟨some [9], fun i => i⟩).2.2 rfl
      (by decide)⟩

theorem worker_draw_full (ctx : WorkerRng) (j : Nat) (hj1 : 1 ≤ j) (hj2 : j ≤ 32768)
    (hok : ctx.pool_ok = true) (hcap : ctx.pool.cap = 1048576)
    (hbuf : ctx.pool.buf.length = 1048576) (hpos : ctx.pool.pos = 32 * j) :
    (worker_draw ctx full_read_env).by_rand = false ∧
    (worker_draw ctx full_read_env).ctx.pool_ok = true ∧
    (worker_draw ctx full_read_env).ctx.pool.cap = 1048576 ∧
    (worker_draw ctx full_read_env).ctx.pool.buf.length = 1048576 ∧
    (worker_draw ctx full_read_env).ctx.pool.pos = 32 * (j % 32768 + 1) := by
  have hlen : (List.replicate (1 <<< 20) 7).length = ctx.pool.cap := by
    rw [List.length_replicate, hcap]; rfl
  have hg := urandpool_get_slice ctx.pool PRIV_LEN full_read_env (List.replicate (1 <<< 20) 7)
    (by omega) (by rw [hcap]; decide) (by omega) (by rw [hcap]; norm_num) rfl hlen
  unfold worker_draw
  rw [hok, if_pos rfl, hg]
  have h32 : PRIV_LEN = 32 := rfl
  by_cases h : PRIV_LEN ≤ ctx.pool.cap - ctx.pool.pos
  · rw [if_pos h]
    rw [h32] at h ⊢
    refine ⟨rfl, rfl, hcap, hbuf, ?_⟩
    simp only
    omega
  · rw [if_neg h]
    rw [h32] at h ⊢
    refine ⟨rfl, rfl, hcap, ?_, ?_⟩
    · simp only; rw [hlen, hcap]
    · simp only
      omega

theorem worker_draws_full (k : Nat) : ∀ (ctx : WorkerRng) (j : Nat), 1 ≤ j → j ≤ 32768 →
    ctx.pool_ok = true → ctx.pool.cap = 1048576 → ctx.pool.buf.length = 1048576 →
    ctx.pool.pos = 32 * j →
    (worker_draws ctx (List.replicate k full_read_env)).1.pool_ok = true ∧
    (worker_draws ctx (List.replicate k full_read_env)).1.pool.cap = 1048576 ∧
    (worker_draws ctx (List.replicate k full_read_env)).1.pool.pos =
      32 * ((j - 1 + k) % 32768 + 1) ∧
    (worker_draws ctx (List.replicate k full_read_env)).2 = List.replicate k false := by
  induction k with
  | zero =>
    intro ctx j h1 h2 hok hcap _ hpos
    refine ⟨hok, hcap, ?_, rfl⟩
    show ctx.pool.pos = _
    rw [hpos, Nat.add_zero, Nat.mod_eq_of_lt (by omega)]
    omega
  | succ k ih =>
    intro ctx j h1 h2 hok hcap hbuf hpos
    obtain ⟨d1, d2, d3, d4, d5⟩ := worker_draw_full ctx j h1 h2 hok hcap hbuf hpos
    obtain ⟨i1, i2, i3, i4⟩ := ih (worker_draw ctx full_read_env).ctx (j % 32768 + 1)
      (by omega) (by omega) d2 d3 d4 d5
    rw [List.replicate_succ]
    unfold worker_draws
    refine ⟨i1, i2, ?_, ?_⟩
    · simp only
      rw [i3]
      omega
    · simp only
      rw [i4, d1, List.replicate_succ]

theorem pool_init_ok :
    worker_rng_init (some (List.replicate (1 <<< 20) 0)) 3 =
      ⟨⟨3, 1 <<< 20, 1 <<< 20, List.replicate (1 <<< 20) 0⟩, true⟩ := rfl

theorem pool_init_buf_length :
    (worker_rng_init (some (List.replicate (1 <<< 20) 0)) 3).pool.buf.length = 1048576 := by
  rw [pool_init_ok]
  show (List.replicate (1 <<< 20) 0).length = 1048576
  rw [List.length_replicate]
  rfl
theorem pool_only_run_spec :
    pool_only_run.1.pool_ok = true ∧ pool_only_run.1.pool.cap = 1048576 ∧
    pool_only_run.1.pool.pos = 1048576 ∧ pool_only_run.2 = List.replicate 32768 false := by
  obtain ⟨r1, r2, r3, r4⟩ := worker_draws_full 32768
    (worker_rng_init (some (List.replicate (1 <<< 20) 0)) 3) 32768 (by norm_num) (by norm_num)
    (by rw [pool_init_ok]) (by rw [pool_init_ok]; rfl) pool_init_buf_length
    (by rw [pool_init_ok]; rfl)
  unfold pool_only_run
  refine ⟨r1, r2, ?_, r4⟩
  rw [r3]

theorem worker_draw_short (ctx : WorkerRng) (hok : ctx.pool_ok = true)
    (hcap : ctx.pool.cap = 1048576) (hpos : ctx.pool.pos = 1048576) :
    (worker_draw ctx short_read_env).by_rand = true := by
  unfold worker_draw
  rw [hok, if_pos rfl]
  unfold urandpool_get
  simp only [hpos, hcap]
  have hlt : (1048576 + 2 ^ 64 - 1048576) % 2 ^ 64 < PRIV_LEN := by
    unfold PRIV_LEN; norm_num
  rw [if_pos hlt]
  have hne : (sys_read short_read_env.rd ctx.pool.buf 1048576).1 ≠ to_ssize 1048576 := by
    unfold sys_read short_read_env to_ssize
    simp
  rw [if_pos hne]

/-- C9 as stated fails. A worker whose pool was set up makes 32768 draws, all served from the
pool; its next draw meets a short refill read and is served by `rand()`, and the worker state
(`pool_ok`, `pos`, `cap`) after it equals the state before it, which was reached by draws
served only from the pool. -/
theorem fallback_indistinguishable_counterexample :
    pool_only_run.2 = List.replicate 32768 false ∧
    (worker_draw pool_only_run.1 short_read_env).by_rand = true ∧
    rng_view (worker_draw pool_only_run.1 short_read_env).ctx = rng_view pool_only_run.1 := by
  obtain ⟨hok, hcap, hpos, hflags⟩ := pool_only_run_spec
  have hrand := worker_draw_short pool_only_run.1 hok hcap hpos
  exact ⟨hflags, hrand, (worker_draw_cases pool_only_run.1 short_read_env).2.2 hok hrand⟩

/-! ### The search: safety -/

theorem set_worker_same (ws : Nat → Worker) (i : Nat) (w : Worker) : set_worker ws i w i = w := by
  simp [set_worker]

theorem set_worker_other (ws : Nat → Worker) (i j : Nat) (w : Worker) (h : j ≠ i) :
    set_worker ws i w j = ws j := by
  simp [set_worker, h]

theorem run_append (s : Search) (es1 es2 : List Event) :
    run s (es1 ++ es2) = run (run s es1) es2 := by
  unfold run; rw [List.foldl_append]

theorem run_cons (s : Search) (e : Event) (es : List Event) :
    run s (e :: es) = run (step s e) es := rfl

theorem inv_frame (s t : Search) (h : SearchInv s) (h1 : t.stop = s.stop)
    (h2 : t.workers = s.workers) (h3 : t.writers = s.writers)
    (h4 : t.found_pub_hex = s.found_pub_hex) : SearchInv t := by
  obtain ⟨a1, a2, a3, a4, a5, a6, a7, a8⟩ := h
  constructor <;> simp only [h1, h2, h3, h4] <;> assumption

theorem inv_stop (s t : Search) (h : SearchInv s) (h1 : t.stop = true)
    (h2 : t.workers = s.workers) (h3 : t.writers = s.writers)
    (h4 : t.found_pub_hex = s.found_pub_hex) : SearchInv t := by
  obtain ⟨a1, a2, a3, a4, a5, a6, a7, a8⟩ := h
  constructor <;> simp only [h1, h2, h3, h4] <;> first | assumption | (intro h; cases h)

theorem xchg_none_of_pc (s : Search) (h : SearchInv s) (i : Nat)
    (hw : ∀ a b, (s.workers i).pc ≠ .won a b) (hd : (s.workers i).pc ≠ .done) :
    (s.workers i).xchg = none := by
  cases hx : (s.workers i).xchg with
  | none => rfl
  | some b =>
    cases b with
    | true => exact absurd (h.after_true i hx) hd
    | false =>
      rcases h.after_false i hx with ⟨⟨a, b, hp⟩, _⟩ | hp
      · exact absurd hp (hw a b)
      · exact absurd hp hd

theorem inv_local (s t : Search) (h : SearchInv s) (i : Nat) (pc1 : WorkerPc) (c1 : Nat)
    (hx : (s.workers i).xchg = none) (hpc : ∀ a b, pc1 ≠ .won a b)
    (h1 : t.stop = s.stop) (h2 : t.workers = set_worker s.workers i ⟨pc1, c1, (s.workers i).xchg⟩)
    (h3 : t.writers = s.writers) (h4 : t.found_pub_hex = s.found_pub_hex) : SearchInv t := by
  have hxi : (t.workers i).xchg = none := by rw [h2, set_worker_same]; exact hx
  have hne : ∀ j, j ≠ i → t.workers j = s.workers j := fun j hj => by
    rw [h2, set_worker_other _ _ _ _ hj]
  have key : ∀ j b, (t.workers j).xchg = some b → j ≠ i := by
    intro j b hj hji
    rw [hji, hxi] at hj
    cases hj
  constructor
  · intro hs j
    by_cases hj : j = i
    · rw [hj]; exact hxi
    · rw [hne j hj]; exact h.no_xchg (h1 ▸ hs) j
  · intro j k hj hk
    have := key j _ hj
    have := key k _ hk
    rw [hne j ‹_›] at hj
    rw [hne k ‹_›] at hk
    exact h.one_false j k hj hk
  · intro j hj
    have hji := key j _ hj
    rw [hne j hji] at hj ⊢
    rw [h3]
    exact h.after_false j hj
  · intro j hj
    have hji := key j _ hj
    rw [hne j hji] at hj ⊢
    exact h.after_true j hj
  · intro j a b hj
    by_cases hji : j = i
    · rw [hji, h2, set_worker_same] at hj
      exact absurd hj (hpc a b)
    · rw [hne j hji] at hj ⊢
      exact h.won_false j a b hj
  · intro j hj
    rw [h3] at hj
    have := h.writers_false j hj
    by_cases hji : j = i
    · rw [hji, hx] at this; cases this
    · rw [hne j hji]; exact this
  · rw [h3]; exact h.writers_len
  · intro hw
    rw [h4]
    exact h.found_empty (h3 ▸ hw)

theorem inv_exchange (s t : Search) (h : SearchInv s) (i : Nat) (a b : List Nat) (c1 : Nat)
    (hp : (s.workers i).pc = .hit a b) (h1 : t.stop = true)
    (h2 : t.workers = set_worker s.workers i
      ⟨if !s.stop then .won a b else .done, c1, some s.stop⟩)
    (h3 : t.writers = s.writers) (h4 : t.found_pub_hex = s.found_pub_hex) : SearchInv t := by
  have hx : (s.workers i).xchg = none :=
    xchg_none_of_pc s h i (fun _ _ => by rw [hp]; intro hc; cases hc) (by rw [hp]; intro hc; cases hc)
  have hne : ∀ j, j ≠ i → t.workers j = s.workers j := fun j hj => by
    rw [h2, set_worker_other _ _ _ _ hj]
  have hti : t.workers i = ⟨if !s.stop then .won a b else .done, c1, some s.stop⟩ := by
    rw [h2, set_worker_same]
  cases hs : s.stop with
  | false =>
    rw [hs] at hti
    have hnone := h.no_xchg hs
    have hw : s.writers = [] := by
      cases hws : s.writers with
      | nil => rfl
      | cons k rest =>
        have := h.writers_false k (by rw [hws]; simp)
        rw [hnone k] at this; cases this
    have key : ∀ j, (t.workers j).xchg = some false → j = i := by
      intro j hj
      by_contra hji
      rw [hne j hji, hnone j] at hj; cases hj
    constructor
    · intro hc; rw [h1] at hc; cases hc
    · intro j k hj hk; rw [key j hj, key k hk]
    · intro j hj
      have := key j hj
      subst this
      left
      rw [hti, h3, hw]
      exact ⟨⟨a, b, rfl⟩, by simp⟩
    · intro j hj
      by_cases hji : j = i
      · rw [hji, hti] at hj; cases hj
      · rw [hne j hji, hnone j] at hj; cases hj
    · intro j a1 b1 hj
      by_cases hji : j = i
      · rw [hji, hti]
      · rw [hne j hji] at hj ⊢; exact h.won_false j a1 b1 hj
    · intro j hj
      rw [h3, hw] at hj; cases hj
    · rw [h3]; exact h.writers_len
    · intro hw2; rw [h4]; exact h.found_empty (h3 ▸ hw2)
  | true =>
    rw [hs] at hti
    have key : ∀ j, (t.workers j).xchg = some false → j ≠ i := by
      intro j hj hji
      rw [hji, hti] at hj; cases hj
    constructor
    · intro hc; rw [h1] at hc; cases hc
    · intro j k hj hk
      have hj1 := key j hj
      have hk1 := key k hk
      rw [hne j hj1] at hj
      rw [hne k hk1] at hk
      exact h.one_false j k hj hk
    · intro j hj
      have hj1 := key j hj
      rw [hne j hj1] at hj ⊢
      rw [h3]
      exact h.after_false j hj
    · intro j hj
      by_cases hji : j = i
      · rw [hji, hti]; rfl
      · rw [hne j hji] at hj ⊢; exact h.after_true j hj
    · intro j a1 b1 hj
      by_cases hji : j = i
      · rw [hji, hti] at hj; cases hj
      · rw [hne j hji] at hj ⊢; exact h.won_false j a1 b1 hj
    · intro j hj
      rw [h3] at hj
      have := h.writers_false j hj
      by_cases hji : j = i
      · rw [hji, hx] at this; cases this
      · rw [hne j hji]; exact this
    · rw [h3]; exact h.writers_len
    · intro hw2; rw [h4]; exact h.found_empty (h3 ▸ hw2)

theorem inv_write (s t : Search) (h : SearchInv s) (i : Nat) (a b : List Nat) (c1 : Nat)
    (hp : (s.workers i).pc = .won a b) (h1 : t.stop = s.stop)
    (h2 : t.workers = set_worker s.workers i ⟨.done, c1, (s.workers i).xchg⟩)
    (h3 : t.writers = s.writers ++ [i]) : SearchInv t := by
  have hx : (s.workers i).xchg = some false := h.won_false i a b hp
  have hne : ∀ j, j ≠ i → t.workers j = s.workers j := fun j hj => by
    rw [h2, set_worker_other _ _ _ _ hj]
  have hti : t.workers i = ⟨.done, c1, some false⟩ := by
    rw [h2, set_worker_same, hx]
  have hxs : ∀ j, (t.workers j).xchg = (s.workers j).xchg := by
    intro j
    by_cases hji : j = i
    · rw [hji, hti, hx]
    · rw [hne j hji]
  have hni : i ∉ s.writers := by
    rcases h.after_false i hx with ⟨_, hn⟩ | hd
    · exact hn
    · rw [hp] at hd; cases hd
  have hw : s.writers = [] := by
    cases hws : s.writers with
    | nil => rfl
    | cons k rest =>
      have hk := h.writers_false k (by rw [hws]; simp)
      have := h.one_false k i hk hx
      subst this
      exact absurd (by rw [hws]; simp) hni
  have hst : s.stop = true := by
    cases hs : s.stop with
    | true => rfl
    | false => have := h.no_xchg hs i; rw [hx] at this; cases this
  constructor
  · intro hc; rw [h1, hst] at hc; cases hc
  · intro j k hj hk
    rw [hxs] at hj hk
    exact h.one_false j k hj hk
  · intro j hj
    rw [hxs] at hj
    have := h.one_false j i hj hx
    subst this
    right
    rw [hti]
  · intro j hj
    rw [hxs] at hj
    by_cases hji : j = i
    · rw [hji, hx] at hj; cases hj
    · rw [hne j hji]; exact h.after_true j hj
  · intro j a1 b1 hj
    by_cases hji : j = i
    · rw [hji, hti] at hj; cases hj
    · rw [hxs]; rw [hne j hji] at hj; exact h.won_false j a1 b1 hj
  · intro j hj
    rw [h3, hw] at hj
    simp only [List.nil_append, List.mem_singleton] at hj
    rw [hj, hti]
  · rw [h3, hw]; simp
  · intro hc; rw [h3, hw] at hc; simp at hc

theorem inv_worker_step (s : Search) (i : Nat) (inp : WorkerInput) (h : SearchInv s) :
    SearchInv (worker_step s i inp) := by
  unfold worker_step
  dsimp only
  split
  · rename_i hp
    have hx := xchg_none_of_pc s h i (fun _ _ => by rw [hp]; intro hc; cases hc)
      (by rw [hp]; intro hc; cases hc)
    exact inv_local s _ h i _ _ hx (fun a b => by split <;> (intro hc; cases hc)) rfl rfl rfl rfl
  · rename_i hp
    have hx := xchg_none_of_pc s h i (fun _ _ => by rw [hp]; intro hc; cases hc)
      (by rw [hp]; intro hc; cases hc)
    exact inv_local s _ h i _ _ hx (fun a b => by split <;> (intro hc; cases hc)) rfl rfl rfl rfl
  · rename_i hp
    have hx := xchg_none_of_pc s h i (fun _ _ => by rw [hp]; intro hc; cases hc)
      (by rw [hp]; intro hc; cases hc)
    split
    · exact inv_local s _ h i _ _ hx (fun a b => by intro hc; cases hc) rfl rfl rfl rfl
    · split
      · exact inv_local s _ h i _ _ hx (fun a b => by intro hc; cases hc) rfl rfl rfl rfl
      · split
        · exact inv_local s _ h i _ _ hx (fun a b => by intro hc; cases hc) rfl rfl rfl rfl
        · exact inv_local s _ h i _ _ hx (fun a b => by intro hc; cases hc) rfl rfl rfl rfl
  · rename_i a b hp
    exact inv_exchange s _ h i a b _ hp rfl rfl rfl rfl
  · rename_i a b hp
    exact inv_write s _ h i a b _ hp rfl rfl rfl
  · exact h

theorem inv_main_step (s : Search) (h : SearchInv s) : SearchInv (main_step s) := by
  unfold main_step
  split
  · split <;> exact inv_frame s _ h rfl rfl rfl rfl
  · split
    · exact inv_stop s _ h rfl rfl rfl rfl
    · exact inv_frame s _ h rfl rfl rfl rfl
  · split
    · exact inv_frame s _ h rfl rfl rfl rfl
    · exact h
  · exact h

theorem inv_step (s : Search) (e : Event) (h : SearchInv s) : SearchInv (step s e) := by
  unfold step
  cases e with
  | worker i inp =>
    dsimp only
    split
    · exact inv_worker_step s i inp h
    · exact h
  | main => exact inv_main_step s h
  | sigint => exact inv_frame s _ h rfl rfl rfl rfl

theorem inv_run (es : List Event) : ∀ s, SearchInv s → SearchInv (run s es) := by
  induction es with
  | nil => intro s h; exact h
  | cons e rest ih => intro s h; rw [run_cons]; exact ih _ (inv_step s e h)

theorem inv_init (ht : HashTable) (W : Nat) : SearchInv (search_init ht W) := by
  constructor <;> simp [search_init]

theorem inv_reachable (ht : HashTable) (W : Nat) (es : List Event) :
    SearchInv (run (search_init ht W) es) :=
  inv_run es _ (inv_init ht W)

/-- C1. In every state reachable by any schedule, for any number of workers: at most one worker
has ever written `found_priv_hex`/`found_pub_hex`; every worker that wrote them got `false`
from its own `atomic_exchange`; a worker that got `true` from its exchange (it hit after the
flag was set, by another worker or by the coordinator) has left its loop and never wrote the
Result; and the Result is still empty while nobody has written it. -/
theorem single_result_writer (ht : HashTable) (W : Nat) (es : List Event) :
    (run (search_init ht W) es).writers.length ≤ 1 ∧
    (∀ i ∈ (run (search_init ht W) es).writers,
      ((run (search_init ht W) es).workers i).xchg = some false) ∧
    (∀ i, ((run (search_init ht W) es).workers i).xchg = some true →
      i ∉ (run (search_init ht W) es).writers ∧
        ((run (search_init ht W) es).workers i).pc = WorkerPc.done) ∧
    (∀ i j, ((run (search_init ht W) es).workers i).xchg = some false →
      ((run (search_init ht W) es).workers j).xchg = some false → i = j) ∧
    ((run (search_init ht W) es).writers = [] → (run (search_init ht W) es).found_pub_hex = []) := by
  have h := inv_reachable ht W es
  refine ⟨h.writers_len, h.writers_false, fun i hi => ⟨fun hw => ?_, h.after_true i hi⟩,
    h.one_false, h.found_empty⟩
  have := h.writers_false i hw
  rw [hi] at this
  cases this

/-! ### The search: cancellation -/

theorem step_nthreads (s : Search) (e : Event) : (step s e).nthreads = s.nthreads := by
  unfold step
  cases e with
  | worker i inp =>
    dsimp only
    split
    · unfold worker_step; dsimp only
      split
      · rfl
      · rfl
      · split
        · rfl
        · split
          · rfl
          · split <;> rfl
      · rfl
      · rfl
      · rfl
    · rfl
  | main =>
    dsimp only
    unfold main_step
    split
    · split <;> rfl
    · split <;> rfl
    · split <;> rfl
    · rfl
  | sigint => rfl

theorem run_nthreads (es : List Event) : ∀ s, (run s es).nthreads = s.nthreads := by
  induction es with
  | nil => intro s; rfl
  | cons e rest ih => intro s; rw [run_cons, ih, step_nthreads]

theorem worker_step_other (s : Search) (i j : Nat) (inp : WorkerInput) (h : j ≠ i) :
    (worker_step s i inp).workers j = s.workers j := by
  unfold worker_step; dsimp only
  split
  · exact set_worker_other _ _ _ _ h
  · exact set_worker_other _ _ _ _ h
  · split
    · exact set_worker_other _ _ _ _ h
    · split
      · exact set_worker_other _ _ _ _ h
      · split <;> exact set_worker_other _ _ _ _ h
  · exact set_worker_other _ _ _ _ h
  · exact set_worker_other _ _ _ _ h
  · rfl

theorem worker_step_done (s : Search) (i : Nat) (inp : WorkerInput)
    (h : (s.workers i).pc = .done) : worker_step s i inp = s := by
  unfold worker_step; dsimp only
  rw [h]

theorem main_step_workers (s : Search) : (main_step s).workers = s.workers := by
  unfold main_step
  split
  · split <;> rfl
  · split <;> rfl
  · split <;> rfl
  · rfl

theorem done_stable (s : Search) (e : Event) (j : Nat) (h : (s.workers j).pc = .done) :
    ((step s e).workers j).pc = .done := by
  unfold step
  cases e with
  | worker i inp =>
    dsimp only
    split
    · by_cases hji : j = i
      · subst hji; rw [worker_step_done s j inp h]; exact h
      · rw [worker_step_other s i j inp hji]; exact h
    · exact h
  | main => dsimp only; rw [main_step_workers]; exact h
  | sigint => exact h

theorem cancelled_local (s t : Search) (h : Cancelled s) (i : Nat) (pc1 : WorkerPc) (c1 : Nat)
    (x1 : Option Bool) (hx : x1 ≠ some false) (hpc : ∀ a b, pc1 ≠ .won a b)
    (h1 : t.stop = s.stop)
    (h2 : t.workers = set_worker s.workers i ⟨pc1, c1, x1⟩) (h3 : t.writers = s.writers)
    (h4 : t.found_pub_hex = s.found_pub_hex) (h5 : t.main = s.main) : Cancelled t := by
  constructor
  · rw [h1]; exact h.stop
  · rw [h3]; exact h.no_writer
  · rw [h4]; exact h.no_found
  · intro j
    by_cases hj : j = i
    · rw [hj, h2, set_worker_same]; exact hx
    · rw [h2, set_worker_other _ _ _ _ hj]; exact h.no_winner j
  · intro j a b
    by_cases hj : j = i
    · rw [hj, h2, set_worker_same]; exact hpc a b
    · rw [h2, set_worker_other _ _ _ _ hj]; exact h.no_won j a b
  · rw [h5]; exact h.main_pc

theorem cancelled_worker_step (s : Search) (i : Nat) (inp : WorkerInput) (h : Cancelled s) :
    Cancelled (worker_step s i inp) := by
  unfold worker_step
  dsimp only
  split
  · exact cancelled_local s _ h i _ _ _ (h.no_winner i) (fun a b => by split <;> (intro hc; cases hc))
      rfl rfl rfl rfl rfl
  · exact cancelled_local s _ h i _ _ _ (h.no_winner i) (fun a b => by split <;> (intro hc; cases hc))
      rfl rfl rfl rfl rfl
  · split
    · exact cancelled_local s _ h i _ _ _ (h.no_winner i) (fun a b => by intro hc; cases hc)
        rfl rfl rfl rfl rfl
    · split
      · exact cancelled_local s _ h i _ _ _ (h.no_winner i) (fun a b => by intro hc; cases hc)
          rfl rfl rfl rfl rfl
      · split
        · exact cancelled_local s _ h i _ _ _ (h.no_winner i) (fun a b => by intro hc; cases hc)
            rfl rfl rfl rfl rfl
        · exact cancelled_local s _ h i _ _ _ (h.no_winner i) (fun a b => by intro hc; cases hc)
            rfl rfl rfl rfl rfl
  · exact cancelled_local s _ h i _ _ _ (by rw [h.stop]; intro hc; cases hc)
      (fun a b => by rw [h.stop]; intro hc; cases hc) h.stop.symm rfl rfl rfl rfl
  · rename_i a b hp
    exact absurd hp (h.no_won i a b)
  · exact h

theorem cancelled_main_step (s : Search) (h : Cancelled s) : Cancelled (main_step s) := by
  have hg : (s.found_pub_hex.getD 0 0 != 0) = false := by rw [h.no_found]; rfl
  unfold main_step
  split
  · rename_i hp; rcases h.main_pc with hm | hm <;> rw [hp] at hm <;> cases hm
  · rename_i hp; rcases h.main_pc with hm | hm <;> rw [hp] at hm <;> cases hm
  · split
    · exact ⟨h.stop, h.no_writer, h.no_found, h.no_winner, h.no_won, Or.inr (by simp only [hg]; rfl)⟩
    · exact h
  · exact h

theorem cancelled_step (s : Search) (e : Event) (h : Cancelled s) : Cancelled (step s e) := by
  unfold step
  cases e with
  | worker i inp =>
    dsimp only
    split
    · exact cancelled_worker_step s i inp h
    · exact h
  | main => exact cancelled_main_step s h
  | sigint => exact ⟨h.stop, h.no_writer, h.no_found, h.no_winner, h.no_won, h.main_pc⟩

theorem cancelled_run (es : List Event) : ∀ s, Cancelled s → Cancelled (run s es) := by
  induction es with
  | nil => intro s h; exact h
  | cons e rest ih => intro s h; rw [run_cons]; exact ih _ (cancelled_step s e h)

/-- After the flag is set and with no winner, two steps take any worker out of its loop. -/
theorem two_steps_done (s : Search) (i : Nat) (inp1 inp2 : WorkerInput) (h : Cancelled s) :
    ((worker_step (worker_step s i inp1) i inp2).workers i).pc = .done := by
  have hstop := h.stop
  have h1 := cancelled_worker_step s i inp1 h
  have hstop1 := h1.stop
  have top_done : ∀ t : Search, t.stop = true → (t.workers i).pc = .top →
      ((worker_step t i inp2).workers i).pc = .done := by
    intro t ht hp
    unfold worker_step; dsimp only
    rw [hp]; dsimp only
    rw [set_worker_same, ht]; rfl
  have hit_done : ∀ (t : Search) a b, t.stop = true → (t.workers i).pc = .hit a b →
      ((worker_step t i inp2).workers i).pc = .done := by
    intro t a b ht hp
    unfold worker_step; dsimp only
    rw [hp]; dsimp only
    rw [set_worker_same, ht]; rfl
  have done_done : ∀ t : Search, (t.workers i).pc = .done →
      ((worker_step t i inp2).workers i).pc = .done := by
    intro t hp
    rw [worker_step_done t i inp2 hp]; exact hp
  cases hp : (s.workers i).pc with
  | start =>
    have : ((worker_step s i inp1).workers i).pc = (if inp1.sctx_ok then .top else .done) := by
      unfold worker_step; dsimp only; rw [hp]; dsimp only; rw [set_worker_same]
    cases hs : inp1.sctx_ok with
    | true => rw [hs] at this; exact top_done _ hstop1 this
    | false => rw [hs] at this; exact done_done _ this
  | top =>
    have : ((worker_step s i inp1).workers i).pc = .done := by
      unfold worker_step; dsimp only; rw [hp]; dsimp only; rw [set_worker_same, hstop]; rfl
    exact done_done _ this
  | iter =>
    have : ((worker_step s i inp1).workers i).pc = .top ∨
        ∃ a b, ((worker_step s i inp1).workers i).pc = .hit a b := by
      unfold worker_step; dsimp only; rw [hp]; dsimp only
      split
      · left; simp only [set_worker_same]
      · split
        · left; simp only [set_worker_same]
        · split
          · right; simp only [set_worker_same]; exact ⟨_, _, rfl⟩
          · left; simp only [set_worker_same]
    rcases this with ht | ⟨a, b, hh⟩
    · exact top_done _ hstop1 ht
    · exact hit_done _ a b hstop1 hh
  | hit a b =>
    have : ((worker_step s i inp1).workers i).pc = .done := by
      unfold worker_step; dsimp only; rw [hp]; dsimp only; rw [set_worker_same, hstop]; rfl
    exact done_done _ this
  | won a b => exact absurd hp (h.no_won i a b)
  | done =>
    rw [worker_step_done s i inp1 hp]
    exact done_done _ hp

theorem run_two (s : Search) (e1 e2 : Event) (es : List Event) :
    run s ([e1, e2] ++ es) = run (step (step s e1) e2) es := rfl

theorem cancelled_drain_workers (inp : Nat → WorkerInput) (L : List Nat) :
    ∀ s, Cancelled s →
      Cancelled (run s (L.flatMap (fun i => [Event.worker i (inp i), Event.worker i (inp i)]))) ∧
      ∀ j, ((j ∈ L ∧ j < s.nthreads) ∨ (s.workers j).pc = .done) →
        ((run s (L.flatMap (fun i => [Event.worker i (inp i), Event.worker i (inp i)]))).workers
          j).pc = .done := by
  induction L with
  | nil =>
    intro s h
    refine ⟨h, fun j hj => ?_⟩
    rcases hj with ⟨hm, _⟩ | hd
    · cases hm
    · exact hd
  | cons i rest ih =>
    intro s h
    rw [List.flatMap_cons, run_two]
    have c1 := cancelled_step s (Event.worker i (inp i)) h
    have c2 := cancelled_step _ (Event.worker i (inp i)) c1
    have hn : (step (step s (Event.worker i (inp i))) (Event.worker i (inp i))).nthreads =
        s.nthreads := by rw [step_nthreads, step_nthreads]
    obtain ⟨k1, k2⟩ := ih _ c2
    refine ⟨k1, fun j hj => k2 j ?_⟩
    rcases hj with ⟨hm, hlt⟩ | hd
    · rcases List.mem_cons.1 hm with rfl | hr
      · right
        have e1 : step s (Event.worker j (inp j)) = worker_step s j (inp j) := by
          unfold step; dsimp only; rw [if_pos hlt]
        have e2 : step (worker_step s j (inp j)) (Event.worker j (inp j)) =
            worker_step (worker_step s j (inp j)) j (inp j) := by
          have : j < (worker_step s j (inp j)).nthreads := by
            rw [← e1, step_nthreads]; exact hlt
          unfold step; dsimp only; rw [if_pos this]
        rw [e1, e2]
        exact two_steps_done s j (inp j) (inp j) h
      · left; exact ⟨hr, by rw [hn]; exact hlt⟩
    · right
      exact done_stable _ _ j (done_stable _ _ j hd)

theorem cancelled_drain (inp : Nat → WorkerInput) (s : Search) (h : Cancelled s) :
    (run s (drain s.nthreads inp)).main = .exited 1 := by
  unfold drain
  rw [run_append]
  obtain ⟨hc, hd⟩ := cancelled_drain_workers inp (List.range s.nthreads) s h
  have hN := run_nthreads ((List.range s.nthreads).flatMap
    (fun i => [Event.worker i (inp i), Event.worker i (inp i)])) s
  generalize run s ((List.range s.nthreads).flatMap
    (fun i => [Event.worker i (inp i), Event.worker i (inp i)])) = t at hc hd hN
  have hall : (List.range t.nthreads).all (fun i => (t.workers i).pc == .done) = true := by
    rw [List.all_eq_true]
    intro j hj
    rw [hN] at hj
    have := hd j (Or.inl ⟨hj, List.mem_range.1 hj⟩)
    rw [this]; rfl
  have hg : (t.found_pub_hex.getD 0 0 != 0) = false := by rw [hc.no_found]; rfl
  show (main_step t).main = .exited 1
  unfold main_step
  rcases hc.main_pc with hm | hm
  · rw [hm]; dsimp only
    rw [if_pos hall, hg]; rfl
  · rw [hm]; dsimp only
    exact hm

theorem exit_inv_step (s : Search) (e : Event) (h : ExitInv s) : ExitInv (step s e) := by
  unfold step
  cases e with
  | worker i inp =>
    dsimp only
    split
    · rename_i hi
      intro c hc
      by_cases hd : (s.workers i).pc = .done
      · rw [worker_step_done s i inp hd] at hc ⊢
        exact h c hc
      · exfalso
        have hm : (worker_step s i inp).main = s.main := by
          unfold worker_step; dsimp only
          split
          · rfl
          · rfl
          · split
            · rfl
            · split
              · rfl
              · split <;> rfl
          · rfl
          · rfl
          · rfl
        rw [hm] at hc
        exact hd ((h c hc).1 i hi)
    · exact h
  | main =>
    dsimp only
    unfold main_step
    split
    · rename_i hp
      split <;> (intro c hc; cases hc)
    · rename_i hp
      split <;> (intro c hc; cases hc)
    · rename_i hp
      split
      · rename_i hall
        intro c hc
        simp only [MainPc.exited.injEq] at hc
        refine ⟨fun i hi => ?_, hc.symm⟩
        rw [List.all_eq_true] at hall
        have := hall i (List.mem_range.2 hi)
        simpa using this
      · exact h
    · exact h
  | sigint => exact h

theorem exit_inv_run (es : List Event) : ∀ s, ExitInv s → ExitInv (run s es) := by
  induction es with
  | nil => intro s h; exact h
  | cons e rest ih => intro s h; rw [run_cons]; exact ih _ (exit_inv_step s e h)

theorem exit_inv_reachable (ht : HashTable) (W : Nat) (es : List Event) :
    ExitInv (run (search_init ht W) es) :=
  exit_inv_run es _ (fun c hc => by cases hc)

theorem cancelled_of_forced (s : Search) (hinv : SearchInv s) (hbody : s.main = .body)
    (hint : s.g_int = true) (hnox : ∀ i, (s.workers i).xchg = none) :
    Cancelled (step s Event.main) := by
  have hs : step s Event.main = { s with stop := true, main := .join } := by
    show main_step s = _
    unfold main_step
    rw [hbody]; dsimp only
    rw [if_pos hint]
  rw [hs]
  have hw : s.writers = [] := by
    cases hws : s.writers with
    | nil => rfl
    | cons k rest =>
      have := hinv.writers_false k (by rw [hws]; simp)
      rw [hnox k] at this; cases this
  refine ⟨rfl, hw, hinv.found_empty hw, fun i => ?_, fun i a b hp => ?_, Or.inl rfl⟩
  · show (s.workers i).xchg ≠ some false
    rw [hnox i]; intro hc; cases hc
  · have := hinv.won_false i a b hp
    rw [hnox i] at this; cases this

/-- C1, at a concrete schedule: two workers hit, worker 1 wins the exchange and is the only
writer, worker 0 loses it and leaves without writing. -/
theorem single_result_writer_witness :
    (run (search_init demo_ht 2) race_schedule).writers = [1] ∧
    ((run (search_init demo_ht 2) race_schedule).workers 1).xchg = some false ∧
    ((run (search_init demo_ht 2) race_schedule).workers 0).xchg = some true ∧
    (0 ∉ (run (search_init demo_ht 2) race_schedule).writers ∧
      ((run (search_init demo_ht 2) race_schedule).workers 0).pc = WorkerPc.done) ∧
    (run (search_init demo_ht 2) race_schedule).main = MainPc.exited 0 :=
  ⟨by decide, (single_result_writer demo_ht 2 race_schedule).2.1 1 (by decide), by decide,
    (single_result_writer demo_ht 2 race_schedule).2.2.1 0 (by decide), by decide⟩

/-- C3. If the coordinator takes the `g_int` branch (it is inside the polling loop and `g_int`
is set) at a moment when no worker has made its exchange, then its store sets the flag and in
every state reachable afterwards `found_pub_hex` is empty and nobody has written the Result,
whatever the workers in flight find; whenever `main` has returned, its status is 1, and it does
return 1 once every worker has had two more steps. In any run at all, `main` returns 0 only
when a worker has written the Result, and 1 only when `found_pub_hex` is empty. -/
theorem cancel_reports_no_match (ht : HashTable) (W : Nat) (es1 es2 : List Event)
    (inp : Nat → WorkerInput)
    (hbody : (run (search_init ht W) es1).main = MainPc.body)
    (hint : (run (search_init ht W) es1).g_int = true)
    (hnox : ∀ i, ((run (search_init ht W) es1).workers i).xchg = none) :
    (after_main_step ht W es1).stop = true ∧
    (run (after_main_step ht W es1) es2).found_pub_hex = [] ∧
    (run (after_main_step ht W es1) es2).writers = [] ∧
    (∀ c, (run (after_main_step ht W es1) es2).main = MainPc.exited c → c = 1) ∧
    (run (run (after_main_step ht W es1) es2) (drain W inp)).main = MainPc.exited 1 ∧
    (∀ (es : List Event) (c : Nat), (run (search_init ht W) es).main = MainPc.exited c →
      (c = 0 ∨ c = 1) ∧
      (c = 0 → (run (search_init ht W) es).writers ≠ [] ∧
        (run (search_init ht W) es).found_pub_hex ≠ []) ∧
      (c = 1 → (run (search_init ht W) es).found_pub_hex.getD 0 0 = 0)) := by
  have h0 : Cancelled (after_main_step ht W es1) :=
    cancelled_of_forced _ (inv_reachable ht W es1) hbody hint hnox
  have h1 : Cancelled (run (after_main_step ht W es1) es2) := cancelled_run es2 _ h0
  have hn : (run (after_main_step ht W es1) es2).nthreads = W := by
    rw [run_nthreads]
    unfold after_main_step
    rw [step_nthreads, run_nthreads]
    rfl
  refine ⟨h0.stop, h1.no_found, h1.no_writer, fun c hc => ?_, ?_, fun es c hc => ?_⟩
  · rcases h1.main_pc with hm | hm
    · rw [hm] at hc; cases hc
    · rw [hm] at hc; cases hc; rfl
  · have := cancelled_drain inp _ h1
    rwa [hn] at this
  · have hc2 := (exit_inv_reachable ht W es c hc).2
    have hinv := inv_reachable ht W es
    by_cases hf : (run (search_init ht W) es).found_pub_hex.getD 0 0 = 0
    · have hb : ((run (search_init ht W) es).found_pub_hex.getD 0 0 != 0) = false := by
        rw [hf]; rfl
      rw [hb] at hc2
      simp only [Bool.false_eq_true, if_false] at hc2
      subst hc2
      exact ⟨Or.inr rfl, fun h => absurd h (by decide), fun _ => hf⟩
    · have hb : ((run (search_init ht W) es).found_pub_hex.getD 0 0 != 0) = true := by
        simpa using hf
      rw [hb] at hc2
      simp only [if_true] at hc2
      subst hc2
      have hne : (run (search_init ht W) es).found_pub_hex ≠ [] := by
        intro he; rw [he] at hf; exact hf rfl
      exact ⟨Or.inl rfl, fun _ => ⟨fun hw => hne (hinv.found_empty hw), hne⟩,
        fun h => absurd h (by decide)⟩

/-- C3, at a concrete schedule: worker 0 is in an iteration when the interrupt arrives; after
the forced store it finds its candidate in the set and makes its exchange, which returns true;
the Result stays empty and `main` returns 1. -/
theorem cancel_reports_no_match_witness :
    ((run (search_init demo_ht 2) interrupt_schedule).main = MainPc.body ∧
      (run (search_init demo_ht 2) interrupt_schedule).g_int = true ∧
      ((run (search_init demo_ht 2) interrupt_schedule).workers 0).pc = WorkerPc.iter) ∧
    ((run (after_main_step demo_ht 2 interrupt_schedule) late_hit_schedule).workers 0).xchg =
      some true ∧
    (run (after_main_step demo_ht 2 interrupt_schedule) late_hit_schedule).found_pub_hex = [] ∧
    (run (run (after_main_step demo_ht 2 interrupt_schedule) late_hit_schedule)
      (drain 2 (fun _ => demo_miss))).main = MainPc.exited 1 :=
  ⟨⟨by decide, by decide, by decide⟩, by decide,
    (cancel_reports_no_match demo_ht 2 interrupt_schedule late_hit_schedule (fun _ => demo_miss)
      (by decide) (by decide)
      (fun i => (inv_reachable demo_ht 2 interrupt_schedule).no_xchg (by decide) i)).2.1,
    (cancel_reports_no_match demo_ht 2 interrupt_schedule late_hit_schedule (fun _ => demo_miss)
      (by decide) (by decide)
      (fun i => (inv_reachable demo_ht 2 interrupt_schedule).no_xchg (by decide) i)).2.2.2.2.1⟩

end OmniGuess
